import Mathlib

/-!
Verification development for the `asset_lru` crate.

The first part embeds `src/cost_based_lru.rs` as pure Lean functions.  The
vec-backed doubly-linked list is a `List (CacheEntry K V)` indexed by slot
number; the `HashMap` index is an association list; `u64` costs are `Nat`
(cost arithmetic in the source cannot over/underflow while the cost invariant
proved below holds).  Every operation that can panic in Rust (`expect`,
`as_occupied_mut`, out-of-bounds indexing, the eviction loop running out of
entries) returns `Option`, with `none` modelling the panic.
-/

set_option maxHeartbeats 1000000

set_option linter.unusedSectionVars false

section AssocList

variable {K A : Type} [DecidableEq K]

/-- Association-list model of the hash maps used by the crate
(`HashMap<Arc<K>, usize>` and the coordinator's `CacheHashMap`s):
lookup returns the first binding of the key. -/
def lookupA : List (K × A) → K → Option A
  | [], _ => none
  | (k', a) :: rest, k => if k = k' then some a else lookupA rest k

/-- Map removal: drop every binding of the key (extensionally the
`HashMap::remove` of the source). -/
def removeA : List (K × A) → K → List (K × A)
  | [], _ => []
  | (k', a) :: rest, k => if k = k' then removeA rest k else (k', a) :: removeA rest k

/-- Map insertion with replacement, as `HashMap::insert`. -/
def insertA (m : List (K × A)) (k : K) (a : A) : List (K × A) :=
  (k, a) :: removeA m k

end AssocList

section CostBasedLruDefs

variable {K V : Type} [DecidableEq K]

/-- The payload of an occupied slot, as `OccupiedEntry<K, V>` of the source
(`Arc` indirections erased). -/
structure OccEntry (K V : Type) where
  key : K
  item : V
  prev : Option Nat
  next : Option Nat
  cost : Nat
deriving DecidableEq, Repr

/-- A slot of the backing vector, as `CacheEntry<K, V>`: either empty (with a
free-list pointer `next_empty`) or occupied. -/
inductive CacheEntry (K V : Type) where
  | Empty (next_empty : Option Nat)
  | Occupied (e : OccEntry K V)
deriving DecidableEq, Repr

/-- The cost-based LRU container, as `CostBasedLru<K, V>` of the source. -/
structure CostBasedLru (K V : Type) where
  entries : List (CacheEntry K V)
  index : List (K × Nat)
  max_cost : Nat
  entries_head : Option Nat
  entries_tail : Option Nat
  empty_head : Option Nat
  current_cost : Nat
deriving DecidableEq, Repr

/-- Read slot `i` as occupied; `none` where the source's `as_occupied` /
`as_occupied_mut` (or the slot indexing itself) would panic. -/
def occAt (entries : List (CacheEntry K V)) (i : Nat) : Option (OccEntry K V) :=
  match entries[i]? with
  | some (.Occupied e) => some e
  | _ => none

/-- Mutate the occupied slot `i` with `g`, as the source's
`self.entries[i].as_occupied_mut()` field assignments; `none` models the
panic on an empty or out-of-bounds slot. -/
def modifyOcc (entries : List (CacheEntry K V)) (i : Nat)
    (g : OccEntry K V → OccEntry K V) : Option (List (CacheEntry K V)) :=
  match occAt entries i with
  | some e => some (entries.set i (.Occupied (g e)))
  | none => none

/-- `CostBasedLru::new`. -/
def CostBasedLru.new (max_cost : Nat) : CostBasedLru K V :=
  { entries := [], index := [], max_cost := max_cost, entries_head := none,
    entries_tail := none, empty_head := none, current_cost := 0 }

/-- `CostBasedLru::unlink_index`: entirely unlink an occupied index from the
doubly-linked list (the slot's own `prev`/`next` fields are left as they are,
exactly as in the source). -/
def unlink_index (s : CostBasedLru K V) (index : Nat) : Option (CostBasedLru K V) :=
  let step1 : Option (CostBasedLru K V) :=
    if s.entries_tail = some index then
      match occAt s.entries index with
      | some e => some { s with entries_tail := e.prev }
      | none => none
    else some s
  match step1 with
  | none => none
  | some s1 =>
    if s1.entries_head = some index then
      match occAt s1.entries index with
      | some e =>
        match e.next with
        | some n =>
            match modifyOcc s1.entries n (fun o => { o with prev := none }) with
            | some es => some { s1 with entries_head := e.next, entries := es }
            | none => none
        | none => some { s1 with entries_head := none }
      | none => none
    else
      match occAt s1.entries index with
      | some e =>
        match e.prev with
        | none => none
        | some old_prev =>
          match modifyOcc s1.entries old_prev (fun o => { o with next := e.next }) with
          | none => none
          | some es =>
            match e.next with
            | some n =>
                match modifyOcc es n (fun o => { o with prev := some old_prev }) with
                | some es2 => some { s1 with entries := es2 }
                | none => none
            | none => some { s1 with entries := es }
      | none => none

/-- `CostBasedLru::make_most_recent`: unlink the slot and splice it in at the
head.  NOTE: exactly as in the source, the slot's own `prev` field is *not*
reset to `none` here. -/
def make_most_recent (s : CostBasedLru K V) (index : Nat) :
    Option (CostBasedLru K V) :=
  match unlink_index s index with
  | none => none
  | some s1 =>
    match modifyOcc s1.entries index (fun o => { o with next := s1.entries_head }) with
    | none => none
    | some es =>
      let s2 := { s1 with entries := es }
      let step3 : Option (CostBasedLru K V) :=
        match s2.entries_head with
        | some i =>
            match modifyOcc s2.entries i (fun o => { o with prev := some index }) with
            | some es2 => some { s2 with entries := es2 }
            | none => none
        | none => some s2
      match step3 with
      | none => none
      | some s3 =>
        let s4 := { s3 with entries_head := some index }
        some (if s4.entries_tail = none then { s4 with entries_tail := some index } else s4)

/-- `CostBasedLru::get`. -/
def CostBasedLru.get (s : CostBasedLru K V) (key : K) :
    Option (Option V × CostBasedLru K V) :=
  match lookupA s.index key with
  | none => some (none, s)
  | some ind =>
      match make_most_recent s ind with
      | none => none
      | some s1 =>
          match occAt s1.entries ind with
          | some e => some (some e.item, s1)
          | none => none

/-- `CostBasedLru::become_empty`: unlink the slot, swap in an empty entry
threaded onto the free list, drop the key from the index and subtract the
cost. -/
def become_empty (s : CostBasedLru K V) (index : Nat) :
    Option (V × CostBasedLru K V) :=
  match unlink_index s index with
  | none => none
  | some s1 =>
    match occAt s1.entries index with
    | some e =>
        some (e.item,
          { s1 with
              entries := s1.entries.set index (.Empty s1.empty_head),
              empty_head := some index,
              index := removeA s1.index e.key,
              current_cost := s1.current_cost - e.cost })
    | none => none

/-- `CostBasedLru::remove`. -/
def CostBasedLru.remove (s : CostBasedLru K V) (key : K) :
    Option (Option V × CostBasedLru K V) :=
  match lookupA s.index key with
  | none => some (none, s)
  | some ind =>
      let s1 := { s with index := removeA s.index key }
      match become_empty s1 ind with
      | none => none
      | some (v, s2) => some (some v, s2)

/-- `CostBasedLru::find_empty`: pop the free list, or extend the backing
vector. -/
def find_empty (s : CostBasedLru K V) : Option (Nat × CostBasedLru K V) :=
  match s.empty_head with
  | some e =>
      match s.entries[e]? with
      | some (.Empty ne) => some (e, { s with empty_head := ne })
      | _ => none
  | none => some (s.entries.length, { s with entries := s.entries ++ [.Empty none] })

/-- The `while self.current_cost > self.max_cost` loop of
`CostBasedLru::maybe_evict`, with explicit fuel.  Each successful iteration
turns one occupied slot empty, so `entries.length` iterations always suffice;
running out of fuel while still over budget coincides with the states where
the source panics (`Not enough entries to explain cost` or the
`become_empty` panic). -/
def evictLoop : Nat → CostBasedLru K V → Option (CostBasedLru K V)
  | 0, s => if s.current_cost ≤ s.max_cost then some s else none
  | fuel + 1, s =>
      if s.current_cost ≤ s.max_cost then some s
      else
        match s.entries_tail with
        | none => none
        | some t =>
            match become_empty s t with
            | none => none
            | some (_, s1) => evictLoop fuel s1

/-- `CostBasedLru::maybe_evict`. -/
def maybe_evict (s : CostBasedLru K V) : Option (CostBasedLru K V) :=
  evictLoop s.entries.length s

/-- `CostBasedLru::insert`: remove any old entry for the key, install the new
entry at the head, then evict. -/
def CostBasedLru.insert (s : CostBasedLru K V) (key : K) (value : V) (cost : Nat) :
    Option (Option V × CostBasedLru K V) :=
  match CostBasedLru.remove s key with
  | none => none
  | some (ret, s1) =>
    match find_empty s1 with
    | none => none
    | some (ind, s2) =>
      let s3 := { s2 with
          entries := s2.entries.set ind (.Occupied ⟨key, value, none, s2.entries_head, cost⟩),
          entries_head := some ind,
          index := insertA s2.index key ind,
          current_cost := s2.current_cost + cost }
      let step4 : Option (CostBasedLru K V) :=
        match s2.entries_head with
        | some h =>
            match modifyOcc s3.entries h (fun o => { o with prev := some ind }) with
            | some es => some { s3 with entries := es }
            | none => none
        | none => some s3
      match step4 with
      | none => none
      | some s4 =>
        let s5 := if s4.entries_tail = none then { s4 with entries_tail := some ind } else s4
        match maybe_evict s5 with
        | none => none
        | some s6 => some (ret, s6)

/-- Index traversal of the MRU list from `entries_head` following `next`, as
`CostBasedLru::iter` (with fuel `entries.length`, enough for every
non-cyclic list; the source iterator has no fuel and would diverge on a
cyclic corruption). -/
def traverseIdx (entries : List (CacheEntry K V)) : Nat → Option Nat → List Nat
  | 0, _ => []
  | _, none => []
  | fuel + 1, some i =>
      match occAt entries i with
      | some e => i :: traverseIdx entries fuel e.next
      | none => []

/-- The slot indices visited by `iter`. -/
def toIdxList (s : CostBasedLru K V) : List Nat :=
  traverseIdx s.entries s.entries.length s.entries_head

/-- The keys yielded by `iter`, in MRU order. -/
def keysOf (s : CostBasedLru K V) : List K :=
  (toIdxList s).filterMap (fun i => (occAt s.entries i).map (fun e => e.key))

/-- Sum of the costs of the occupied slots of the backing vector. -/
def entriesCost (entries : List (CacheEntry K V)) : Nat :=
  (entries.map (fun x => match x with | .Occupied e => e.cost | .Empty _ => 0)).sum

/-- The value currently stored for a key (via the index), if any. -/
def valueAt (s : CostBasedLru K V) (k : K) : Option V :=
  (lookupA s.index k).bind (fun i => (occAt s.entries i).map (fun e => e.item))

end CostBasedLruDefs

section LruRuns

variable {K V : Type} [DecidableEq K]

/-- One externally observable `CostBasedLru` operation. -/
inductive LruOp (K V : Type) where
  | get (k : K)
  | insert (k : K) (v : V) (c : Nat)
  | remove (k : K)
deriving DecidableEq, Repr

/-- Run one operation, returning its result and the next state (`none` models
a panic). -/
def stepLru (s : CostBasedLru K V) : LruOp K V → Option (Option V × CostBasedLru K V)
  | .get k => CostBasedLru.get s k
  | .insert k v c => CostBasedLru.insert s k v c
  | .remove k => CostBasedLru.remove s k

/-- Run a sequence of operations from a given state. -/
def runLruFrom (s : CostBasedLru K V) : List (LruOp K V) → Option (CostBasedLru K V)
  | [] => some s
  | op :: rest =>
      match stepLru s op with
      | some (_, s1) => runLruFrom s1 rest
      | none => none

/-- Run a sequence of operations on a fresh `CostBasedLru::new (max_cost)`. -/
def runLru (max_cost : Nat) (ops : List (LruOp K V)) : Option (CostBasedLru K V) :=
  runLruFrom (CostBasedLru.new max_cost) ops

end LruRuns

section CountLruModel

variable {K V : Type} [DecidableEq K]

/-- Modelled from the spec: a classical count-bounded LRU of capacity `cap`
(the reference container of spec section 8, property 1; the crate's own
property test compares against the `lru` crate's `LruCache`).  The state is
the list of `(key, value)` pairs in MRU-to-LRU order; at most `cap` entries
are retained, the least recently used being evicted first. -/
structure CountLru (K V : Type) where
  cap : Nat
  items : List (K × V)
deriving DecidableEq, Repr

/-- Modelled from the spec: count-LRU `get` promotes a present key to the
front and returns its value. -/
def countGet (s : CountLru K V) (k : K) : Option V × CountLru K V :=
  match lookupA s.items k with
  | none => (none, s)
  | some v => (some v, { s with items := (k, v) :: removeA s.items k })

/-- Modelled from the spec: count-LRU `put` replaces/inserts at the front and
trims least-recently-used entries down to the capacity, returning the prior
value of the key if any. -/
def countPut (s : CountLru K V) (k : K) (v : V) : Option V × CountLru K V :=
  let old := lookupA s.items k
  let items1 := (k, v) :: removeA s.items k
  (old, { s with items := items1.take s.cap })

/-- Modelled from the spec: count-LRU removal. -/
def countRemove (s : CountLru K V) (k : K) : Option V × CountLru K V :=
  (lookupA s.items k, { s with items := removeA s.items k })

/-- Run one operation on the count-bounded reference LRU. -/
def stepCount (s : CountLru K V) : LruOp K V → Option V × CountLru K V
  | .get k => countGet s k
  | .insert k v _ => countPut s k v
  | .remove k => countRemove s k

/-- Run a sequence of operations on the count-bounded reference LRU. -/
def runCountFrom (s : CountLru K V) : List (LruOp K V) → CountLru K V
  | [] => s
  | op :: rest => runCountFrom (stepCount s op).2 rest

/-- Run a sequence from an empty reference LRU of capacity `cap`. -/
def runCount (cap : Nat) (ops : List (LruOp K V)) : CountLru K V :=
  runCountFrom { cap := cap, items := [] } ops

end CountLruModel

section LruBugEvidence

/-- The operation sequence (unit costs, capacity 2) that exposes the missing
`prev := none` reset in `make_most_recent`: promote key 0 inside a 2-element
cache, shrink to empty (which leaves `entries_tail` dangling on an empty
slot), refill with keys 2 and 3, then insert key 4, which forces one
eviction. -/
def promoteDemoteSeq : List (LruOp Nat Nat) :=
  [.insert 0 0 1, .insert 1 1 1, .get 0, .remove 1, .remove 0,
   .insert 2 2 1, .insert 3 3 1, .insert 4 4 1]

/-- The short sequence that corrupts `entries_tail`: promote key 1 (leaving
its `prev` stale), then remove both keys; the final singleton unlink reads
the stale `prev` and stores it into `entries_tail`. -/
def emptySingletonSeq : List (LruOp Nat Nat) :=
  [.insert 1 1 1, .insert 2 2 1, .get 1, .remove 2, .remove 1]

/-- The 7-operation prefix leaving a reachable corrupted state: keys 2 and 3
resident, `entries_tail` pointing at the slot of key 3 (the MRU entry). -/
def corruptedTailSeq : List (LruOp Nat Nat) :=
  [.insert 0 0 1, .insert 1 1 1, .get 0, .remove 1, .remove 0,
   .insert 2 2 1, .insert 3 3 1]

end LruBugEvidence

section EntryLemmas

variable {K V : Type}

/-- Cost contributed by one slot. -/
def costOf0 : CacheEntry K V → Nat
  | .Occupied e => e.cost
  | .Empty _ => 0

end EntryLemmas

section CostInvariantOps

variable {K V : Type} [DecidableEq K]

/-- The accounting invariant: `current_cost` is the sum of the costs of the
occupied slots. -/
def CostOk (s : CostBasedLru K V) : Prop :=
  s.current_cost = entriesCost s.entries

end CostInvariantOps

section ChainDefs

variable {K V : Type} [DecidableEq K]

/-- The link that a list segment expects next: the first element of `rest`,
or the continuation `n` if `rest` is exhausted. -/
def nextOf (rest : List Nat) (n : Option Nat) : Option Nat :=
  match rest with
  | [] => n
  | j :: _ => some j

/-- The link that a list segment hands backwards: the last element of `l`,
or the start `p` if `l` is empty. -/
def lastOf (l : List Nat) (p : Option Nat) : Option Nat :=
  match l.getLast? with
  | some x => some x
  | none => p

/-- Slot `i` is occupied with the given `prev`/`next` links. -/
def nodeOk (entries : List (CacheEntry K V)) (i : Nat) (p n : Option Nat) : Prop :=
  match occAt entries i with
  | some e => e.prev = p ∧ e.next = n
  | none => False

/-- The indices `l` form a doubly-linked segment in `entries`: the first
node's `prev` is `p`, consecutive nodes point at each other, and the last
node's `next` is `n`. -/
def linkedSeg (entries : List (CacheEntry K V)) : Option Nat → List Nat → Option Nat → Prop
  | _, [], _ => True
  | p, i :: rest, n => nodeOk entries i p (nextOf rest n) ∧ linkedSeg entries (some i) rest n

/-- The indices `f` form the free list: each slot is empty and its
`next_empty` is the following index. -/
def freeFrom (entries : List (CacheEntry K V)) : List Nat → Prop
  | [] => True
  | i :: rest => entries[i]? = some (.Empty rest.head?) ∧ freeFrom entries rest

/-- Cost stored at slot `i` (0 for an empty slot). -/
def costAt (entries : List (CacheEntry K V)) (i : Nat) : Nat :=
  match occAt entries i with
  | some e => e.cost
  | none => 0

/-- Total cost along a list of slot indices. -/
def costsOf (entries : List (CacheEntry K V)) (l : List Nat) : Nat :=
  (l.map (costAt entries)).sum

/-- Key, value and cost of a slot — everything except the link fields. -/
def occData (entries : List (CacheEntry K V)) (j : Nat) : Option (K × V × Nat) :=
  (occAt entries j).map (fun e => (e.key, e.item, e.cost))

/-- Structural well-formedness of a `CostBasedLru` state: `l` is the MRU
chain (head first), `f` the free list, and together they partition the
slots. -/
structure ShapeInv (s : CostBasedLru K V) (l f : List Nat) : Prop where
  linked : linkedSeg s.entries none l none
  freed : freeFrom s.entries f
  head_eq : s.entries_head = l.head?
  tail_eq : s.entries_tail = l.getLast?
  ehead_eq : s.empty_head = f.head?
  nodup : (l ++ f).Nodup
  cover : ∀ j, j < s.entries.length ↔ (j ∈ l ∨ j ∈ f)

/-- `ShapeInv` with one slot `i` detached: `i` is in bounds but belongs to
neither the chain nor the free list (the intermediate state between
`unlink_index` and the relink / free). -/
structure ShapeInvX (s : CostBasedLru K V) (l f : List Nat) (i : Nat) : Prop where
  linked : linkedSeg s.entries none l none
  freed : freeFrom s.entries f
  head_eq : s.entries_head = l.head?
  tail_eq : s.entries_tail = l.getLast?
  ehead_eq : s.empty_head = f.head?
  nodup : (l ++ f).Nodup
  notin : i ∉ l ++ f
  cover : ∀ j, j < s.entries.length ↔ (j ∈ l ∨ j ∈ f ∨ j = i)

/-- Full well-formedness: structure plus index fidelity plus the cost sum. -/
structure Chain (s : CostBasedLru K V) (l f : List Nat)
    extends ShapeInv s l f : Prop where
  idx_mem : ∀ i ∈ l, ∀ e, occAt s.entries i = some e → lookupA s.index e.key = some i
  idx_sound : ∀ (k : K) (i : Nat), lookupA s.index k = some i →
      i ∈ l ∧ ∃ e, occAt s.entries i = some e ∧ e.key = k
  cost_eq : s.current_cost = costsOf s.entries l

/-- A `CostBasedLru` state is well-formed when some chain and free list
witness it. -/
def Wf (s : CostBasedLru K V) : Prop := ∃ l f, Chain s l f

end ChainDefs

section AssetCacheDefs

variable {K V : Type} [DecidableEq K]

structure VfsReader where
  size : Except Unit Nat
  bytes : Except Unit (List Nat)
deriving Repr

/-- `CacheError<DecoderError>` of asset_cache.rs, payloads erased. -/
inductive CacheError where
  | vfs
  | decoder
deriving DecidableEq, Repr

/-- `AssetCacheConfig`. -/
structure AssetCacheConfig where
  max_bytes_cost : Nat
  max_decoded_cost : Nat
  max_single_object_bytes_cost : Nat
  max_single_object_decoded_cost : Nat
deriving DecidableEq, Repr

/-- The immutable environment of an `AssetCache`: the configuration plus the
`Vfs` and `Decoder` implementations.  `decode` decodes from an in-memory
buffer (`decode(&mut &x[..])`); `decodeStream` is the same decoder fed the
reader directly (`decode(bytes_reader)`), which is kept separate because it
performs its own IO on the reader. -/
structure AssetCacheEnv (K V : Type) where
  config : AssetCacheConfig
  vfs_open : K → Except Unit VfsReader
  decode : List Nat → Except Unit V
  decodeStream : VfsReader → Except Unit V
  estimate_cost : V → Except Unit Nat

/-- The mutable state of an `AssetCache`: the five tiers.  `decode_count` is
instrumentation only: it counts decoder invocations and influences nothing
(it lets theorems state that the decoder was, or was not, called). -/
structure AssetCacheState (K V : Type) where
  pinned_entries : List (K × V)
  bytes_cache : CostBasedLru K (List Nat)
  decoded_cache : CostBasedLru K V
  decoding_guards : List K
  weak_refs : List (K × V)
  decode_count : Nat
deriving DecidableEq, Repr

/-- `AssetCache::new`: empty tiers, LRU budgets from the configuration. -/
def AssetCacheState.new (cfg : AssetCacheConfig) : AssetCacheState K V :=
  { pinned_entries := [], bytes_cache := CostBasedLru.new cfg.max_bytes_cost,
    decoded_cache := CostBasedLru.new cfg.max_decoded_cost,
    decoding_guards := [], weak_refs := [], decode_count := 0 }

/-- `AssetCache::search_for_item`: pinned table, then the decoded LRU (whose
`get` promotes), then a weak-reference upgrade.  `alive k` tells whether the
weak reference for `k` can be upgraded at this moment (`Weak::upgrade`). -/
def search_for_item (alive : K → Bool) (st : AssetCacheState K V) (key : K) :
    Option (Option V × AssetCacheState K V) :=
  match lookupA st.pinned_entries key with
  | some x => some (some x, st)
  | none =>
    match CostBasedLru.get st.decoded_cache key with
    | none => none
    | some (some x, dc) => some (some x, { st with decoded_cache := dc })
    | some (none, dc) =>
      let st1 := { st with decoded_cache := dc }
      match lookupA st1.weak_refs key with
      | some v => if alive key then some (some v, st1) else some (none, st1)
      | none => some (none, st1)

/-- The tail of `find_or_decode_postchecked` from the `let cost = ...` line:
estimate the cost, insert into the decoded LRU when within the single-object
limit (the `expect("Just inserted")` is the `some (none, _)` arm, modelled as
`none`), and publish the result into `weak_refs`. -/
def afterDecode (env : AssetCacheEnv K V) (st : AssetCacheState K V) (key : K)
    (decoded : V) : Option (Except CacheError V × AssetCacheState K V) :=
  match env.estimate_cost decoded with
  | .error _ => some (.error .decoder, st)
  | .ok cost =>
    if cost ≤ env.config.max_single_object_decoded_cost then
      match CostBasedLru.insert st.decoded_cache key decoded cost with
      | none => none
      | some (_, dc2) =>
        match CostBasedLru.get dc2 key with
        | none => none
        | some (none, _) => none
        | some (some res, dc3) =>
          let st2 := { st with decoded_cache := dc3 }
          some (.ok res, { st2 with weak_refs := insertA st2.weak_refs key res })
    else
      some (.ok decoded, { st with weak_refs := insertA st.weak_refs key decoded })

/-- The `size <= max_single_object_bytes_cost` branch of
`find_or_decode_postchecked`: consult the bytes LRU, else read the stream,
insert the bytes and fetch them back (the `expect("We just inserted this")`
is the `some (none, _)` arm, modelled as `none`), then decode. -/
def viaBytesCache (env : AssetCacheEnv K V) (st : AssetCacheState K V) (key : K)
    (r : VfsReader) (size : Nat) : Option (Except CacheError V × AssetCacheState K V) :=
  match CostBasedLru.get st.bytes_cache key with
  | none => none
  | some (some x, bc) =>
    let st2 := { st with bytes_cache := bc, decode_count := st.decode_count + 1 }
    match env.decode x with
    | .error _ => some (.error .decoder, st2)
    | .ok d => afterDecode env st2 key d
  | some (none, bc) =>
    let st2 := { st with bytes_cache := bc }
    match r.bytes with
    | .error _ => some (.error .vfs, st2)
    | .ok dest =>
      match CostBasedLru.insert st2.bytes_cache key dest size with
      | none => none
      | some (_, bc2) =>
        match CostBasedLru.get bc2 key with
        | none => none
        | some (none, _) => none
        | some (some will_use, bc3) =>
          let st3 := { st2 with bytes_cache := bc3, decode_count := st2.decode_count + 1 }
          match env.decode will_use with
          | .error _ => some (.error .decoder, st3)
          | .ok d => afterDecode env st3 key d

/-- `AssetCache::find_or_decode_postchecked`: re-check the caches, open the
VFS entry, read its size (note: a `get_size` failure is propagated with `?`),
then decode via the bytes cache or by streaming. -/
def find_or_decode_postchecked (env : AssetCacheEnv K V) (alive : K → Bool)
    (st : AssetCacheState K V) (key : K) :
    Option (Except CacheError V × AssetCacheState K V) :=
  match search_for_item alive st key with
  | none => none
  | some (some x, st1) => some (.ok x, st1)
  | some (none, st1) =>
    match env.vfs_open key with
    | .error _ => some (.error .vfs, st1)
    | .ok r =>
      match r.size with
      | .error _ => some (.error .vfs, st1)
      | .ok size =>
        if size ≤ env.config.max_single_object_bytes_cost then
          viaBytesCache env st1 key r size
        else
          match env.decodeStream r with
          | .error _ => some (.error .decoder,
              { st1 with decode_count := st1.decode_count + 1 })
          | .ok d => afterDecode env
              { st1 with decode_count := st1.decode_count + 1 } key d

/-- `AssetCache::find_or_decode`: search, then take (inserting if needed) the
per-key decoding guard, then run the post-checked decode. -/
def find_or_decode (env : AssetCacheEnv K V) (alive : K → Bool)
    (st : AssetCacheState K V) (key : K) :
    Option (Except CacheError V × AssetCacheState K V) :=
  match search_for_item alive st key with
  | none => none
  | some (some x, st1) => some (.ok x, st1)
  | some (none, st1) =>
    let st2 := if key ∈ st1.decoding_guards then st1
      else { st1 with decoding_guards := key :: st1.decoding_guards }
    find_or_decode_postchecked env alive st2 key

/-- `AssetCache::get`. -/
def AssetCache.get (env : AssetCacheEnv K V) (alive : K → Bool)
    (st : AssetCacheState K V) (key : K) :
    Option (Except CacheError V × AssetCacheState K V) :=
  find_or_decode env alive st key

/-- `AssetCache::cache_always`: pin the value and publish its weak
reference. -/
def cache_always (st : AssetCacheState K V) (key : K) (value : V) :
    AssetCacheState K V :=
  { st with
    pinned_entries := insertA st.pinned_entries key value,
    weak_refs := insertA st.weak_refs key value }

/-- `AssetCache::remove`: drop the key from all five tiers, in source
order (pinned, bytes LRU, guards, decoded LRU, weak references). -/
def AssetCache.remove (st : AssetCacheState K V) (key : K) :
    Option (AssetCacheState K V) :=
  let st1 := { st with pinned_entries := removeA st.pinned_entries key }
  match CostBasedLru.remove st1.bytes_cache key with
  | none => none
  | some (_, bc) =>
    let st2 := { st1 with
      bytes_cache := bc,
      decoding_guards := st1.decoding_guards.filter (fun g => decide (g ≠ key)) }
    match CostBasedLru.remove st2.decoded_cache key with
    | none => none
    | some (_, dc) =>
      some { st2 with
        decoded_cache := dc,
        weak_refs := removeA st2.weak_refs key }

end AssetCacheDefs

section AssetCacheFixtures

/-- Environment whose single asset streams (reported size 10 is over the
bytes limit 3) and decodes to a value of estimated cost 9, over the decoded
limit 5. -/
def envStream : AssetCacheEnv Nat Nat :=
  { config := { max_bytes_cost := 50, max_decoded_cost := 60,
                max_single_object_bytes_cost := 3, max_single_object_decoded_cost := 5 },
    vfs_open := fun _ => .ok { size := .ok 10, bytes := .ok [1, 2, 3] },
    decode := fun _ => .ok 77, decodeStream := fun _ => .ok 77,
    estimate_cost := fun _ => .ok 9 }

/-- Environment whose reader reports no size (`get_size` fails) although its
stream decodes fine. -/
def envNoSize : AssetCacheEnv Nat Nat :=
  { envStream with
    vfs_open := fun _ => .ok { size := .error (), bytes := .ok [1, 2, 3] } }

/-- The self-evicting configuration of the C3 counterexample:
`max_single_object_bytes_cost` (10) exceeds `max_bytes_cost` (5), and the
asset has size 7. -/
def envSelfEvict : AssetCacheEnv Nat Nat :=
  { config := { max_bytes_cost := 5, max_decoded_cost := 100,
                max_single_object_bytes_cost := 10, max_single_object_decoded_cost := 100 },
    vfs_open := fun _ => .ok { size := .ok 7, bytes := .ok [1, 2, 3, 4, 5, 6, 7] },
    decode := fun _ => .ok 42, decodeStream := fun _ => .ok 42,
    estimate_cost := fun _ => .ok 1 }

/-- The same environment with a consistent configuration: single-object
limits within the LRU budgets. -/
def envConsistent : AssetCacheEnv Nat Nat :=
  { envSelfEvict with
    config := { max_bytes_cost := 20, max_decoded_cost := 100,
                max_single_object_bytes_cost := 10, max_single_object_decoded_cost := 100 } }

/-- Environment whose asset is small enough for the bytes cache (size 2,
limit 3) but decodes to a value of estimated cost 9, over the decoded
limit 5. -/
def envBytesSmall : AssetCacheEnv Nat Nat :=
  { envStream with
    vfs_open := fun _ => .ok { size := .ok 2, bytes := .ok [1, 2] } }

/-- A concrete cache state with the key 3 pinned to 99. -/
def stPinned : AssetCacheState Nat Nat :=
  { AssetCacheState.new envStream.config with pinned_entries := [(3, 99)] }

end AssetCacheFixtures

section AssocList

variable {K A : Type} [DecidableEq K]

theorem lookupA_removeA_self (m : List (K × A)) (k : K) :
    lookupA (removeA m k) k = none := by
  induction m with
  | nil => rfl
  | cons p rest ih =>
    obtain ⟨k', a⟩ := p
    by_cases h : k = k'
    · subst h
      simp [removeA, ih]
    · simp [removeA, lookupA, h, ih]

theorem lookupA_removeA_ne (m : List (K × A)) {k k' : K} (h : k' ≠ k) :
    lookupA (removeA m k) k' = lookupA m k' := by
  induction m with
  | nil => rfl
  | cons p rest ih =>
    obtain ⟨k'', a⟩ := p
    by_cases h1 : k = k''
    · subst h1
      simp [removeA, lookupA, h, ih]
    · by_cases h2 : k' = k'' <;> simp [removeA, lookupA, h1, h2, ih]

theorem removeA_of_lookupA_none {m : List (K × A)} {k : K}
    (h : lookupA m k = none) : removeA m k = m := by
  induction m with
  | nil => rfl
  | cons p rest ih =>
    obtain ⟨k', a⟩ := p
    by_cases h1 : k = k'
    · simp [lookupA, h1] at h
    · simp [lookupA, h1] at h
      simp [removeA, h1, ih h]

theorem removeA_removeA (m : List (K × A)) (k : K) :
    removeA (removeA m k) k = removeA m k :=
  removeA_of_lookupA_none (lookupA_removeA_self m k)

theorem lookupA_insertA_self (m : List (K × A)) (k : K) (a : A) :
    lookupA (insertA m k a) k = some a := by
  simp [insertA, lookupA]

theorem lookupA_insertA_ne (m : List (K × A)) {k k' : K} (a : A) (h : k' ≠ k) :
    lookupA (insertA m k a) k' = lookupA m k' := by
  simp [insertA, lookupA, h, lookupA_removeA_ne m h]

theorem mem_of_lookupA {m : List (K × A)} {k : K} {a : A}
    (h : lookupA m k = some a) : (k, a) ∈ m := by
  induction m with
  | nil => simp [lookupA] at h
  | cons p rest ih =>
    obtain ⟨k', a'⟩ := p
    by_cases h1 : k = k'
    · subst h1
      simp [lookupA] at h
      simp [h]
    · simp [lookupA, h1] at h
      exact List.mem_cons_of_mem _ (ih h)

end AssocList

section LruBugEvidence

/-- Claim C1: for every sequence of get / insert-with-cost-1 / remove
operations, `CostBasedLru` with `max_cost = N` returns the same values and
retains the same keys as a classical count-bounded LRU of capacity N.
REFUTED by evaluation: after `promoteDemoteSeq` the embedded code answers
`get 3` with a miss (`some none`) and retains keys `[4, 2]`, while the
count-bounded reference LRU of capacity 2 answers `some 3` and retains
`[4, 3]`.  This is exactly the property asserted by the crate's own
`test_against_lru_cache_bounded` property test, so the input above makes
that test's `prop_assert_eq` fail. -/
theorem c1_unit_cost_equivalence_refuted :
    ((runLru 2 promoteDemoteSeq).bind
        (fun s => (CostBasedLru.get s 3).map (fun r => r.1))) = some none ∧
      (countGet (runCount 2 promoteDemoteSeq) 3).1 = some 3 ∧
      ((runLru 2 promoteDemoteSeq).map keysOf) = some [4, 2] ∧
      ((runCount 2 promoteDemoteSeq).items.map (fun p => p.1)) = [4, 3] :=
  ⟨rfl, rfl, rfl, rfl⟩

/-- Claim C2: after every sequence of `CostBasedLru` operations the MRU list
is well-formed — in particular `entries_tail` is `none` when the cache is
empty and never points at an empty slot.  REFUTED by evaluation: after
`emptySingletonSeq` (which completes without panicking) the cache is empty
(`keysOf` is `[]`, `entries_head` is `none`) yet `entries_tail = some 1`
and slot 1 is empty (`occAt` yields `none`).  Root cause:
`make_most_recent` never resets the promoted slot's `prev` field. -/
theorem c2_mru_list_invariant_refuted :
    ((runLru 10 emptySingletonSeq : Option (CostBasedLru Nat Nat)).map
        (fun s => (keysOf s, s.entries_head, s.entries_tail,
          s.entries_tail.bind (fun t => occAt s.entries t))))
      = some ([], none, some 1, none) :=
  rfl

/-- Claim C7: `get` promotes unconditionally, `insert` places the new entry
at the head, and eviction removes entries in strict least-recently-used
(tail-to-head) order, so a `get` on a middle entry moves it away from
eviction.  REFUTED for the eviction part by evaluation: in
`promoteDemoteSeq`, key 2 is inserted before key 3 and neither is touched
afterwards, so key 2 is the least recently used when the insert of key 4
forces an eviction; yet the code evicts key 3 and retains key 2 (final
MRU-order keys `[4, 2]`; the reference retains `[4, 3]`).  The corrupted
`entries_tail` produced by the `make_most_recent` defect points at the
most-recently-inserted entry, so the eviction removes the wrong slot. -/
theorem c7_eviction_ordering_refuted :
    ((runLru 2 promoteDemoteSeq).map
        (fun s => (keysOf s, lookupA s.index 3, (lookupA s.index 2).isSome)))
      = some ([4, 2], none, true) :=
  rfl

/-- Claim C10 (counterexample): inserting with a single cost strictly greater
than `max_cost` is claimed to always leave the cache completely empty with
`current_cost = 0`.  REFUTED by evaluation: from the reachable state after
`corruptedTailSeq` (with `max_cost = 2`), `insert 5 5 9` (cost 9 > 2)
completes and returns the prior value `none`, but leaves `current_cost = 1`
and key 2 still resident. -/
theorem c10_insert_over_max_not_emptying :
    ((runLru 2 corruptedTailSeq).bind
        (fun s => (CostBasedLru.insert s 5 5 9).map
          (fun r => (r.1, r.2.current_cost, keysOf r.2)))) = some (none, 1, [2]) ∧
      ((runLru 2 corruptedTailSeq).map (fun s => s.max_cost)) = some 2 :=
  ⟨rfl, rfl⟩

end LruBugEvidence

section EntryLemmas

variable {K V : Type}

theorem entriesCost_eq_sum (entries : List (CacheEntry K V)) :
    entriesCost entries = (entries.map costOf0).sum := by
  induction entries with
  | nil => rfl
  | cons a rest ih =>
    unfold entriesCost at ih ⊢
    cases a <;> simp_all [costOf0]

theorem occAt_eq_some_iff {entries : List (CacheEntry K V)} {i : Nat} {e : OccEntry K V} :
    occAt entries i = some e ↔ entries[i]? = some (.Occupied e) := by
  unfold occAt
  cases h : entries[i]? with
  | none => simp
  | some x => cases x <;> simp

theorem occAt_lt_length {entries : List (CacheEntry K V)} {i : Nat} {e : OccEntry K V}
    (h : occAt entries i = some e) : i < entries.length := by
  rw [occAt_eq_some_iff] at h
  obtain ⟨hlt, -⟩ := List.getElem?_eq_some.mp h
  exact hlt

theorem modifyOcc_eq_some {entries es : List (CacheEntry K V)} {i : Nat}
    {g : OccEntry K V → OccEntry K V} :
    modifyOcc entries i g = some es ↔
      ∃ e, occAt entries i = some e ∧ es = entries.set i (.Occupied (g e)) := by
  unfold modifyOcc
  cases h : occAt entries i <;> simp [eq_comm]

theorem modifyOcc_length {entries es : List (CacheEntry K V)} {i : Nat}
    {g : OccEntry K V → OccEntry K V} (h : modifyOcc entries i g = some es) :
    es.length = entries.length := by
  obtain ⟨e, -, rfl⟩ := modifyOcc_eq_some.mp h
  exact List.length_set ..

theorem modifyOcc_getElem?_ne {entries es : List (CacheEntry K V)} {i : Nat}
    {g : OccEntry K V → OccEntry K V} (h : modifyOcc entries i g = some es)
    {j : Nat} (hj : j ≠ i) : es[j]? = entries[j]? := by
  obtain ⟨e, -, rfl⟩ := modifyOcc_eq_some.mp h
  exact List.getElem?_set_ne (fun hij => hj hij.symm)

theorem modifyOcc_occAt_ne {entries es : List (CacheEntry K V)} {i : Nat}
    {g : OccEntry K V → OccEntry K V} (h : modifyOcc entries i g = some es)
    {j : Nat} (hj : j ≠ i) : occAt es j = occAt entries j := by
  unfold occAt
  rw [modifyOcc_getElem?_ne h hj]

theorem modifyOcc_occAt_self {entries es : List (CacheEntry K V)} {i : Nat}
    {g : OccEntry K V → OccEntry K V} (h : modifyOcc entries i g = some es) :
    ∃ e, occAt entries i = some e ∧ occAt es i = some (g e) := by
  obtain ⟨e, he, rfl⟩ := modifyOcc_eq_some.mp h
  refine ⟨e, he, ?_⟩
  rw [occAt_eq_some_iff]
  exact List.getElem?_set_self (occAt_lt_length he)

/-- Replacing a slot changes the occupied-cost sum by the difference of the
slot costs (phrased additively to stay inside `Nat`). -/
theorem entriesCost_set {entries : List (CacheEntry K V)} {i : Nat}
    {old : CacheEntry K V} (h : entries[i]? = some old) (x : CacheEntry K V) :
    entriesCost (entries.set i x) + costOf0 old = entriesCost entries + costOf0 x := by
  induction entries generalizing i with
  | nil => simp at h
  | cons a rest ih =>
    cases i with
    | zero =>
      simp at h
      subst h
      simp [entriesCost_eq_sum]
      omega
    | succ j =>
      simp at h
      have := ih h
      simp [entriesCost_eq_sum] at this ⊢
      omega

theorem occAt_cost_le {entries : List (CacheEntry K V)} {i : Nat} {e : OccEntry K V}
    (h : occAt entries i = some e) : e.cost ≤ entriesCost entries := by
  rw [occAt_eq_some_iff] at h
  induction entries generalizing i with
  | nil => simp at h
  | cons a rest ih =>
    cases i with
    | zero =>
      simp at h
      subst h
      simp [entriesCost_eq_sum, costOf0]
    | succ j =>
      simp at h
      have := ih h
      simp [entriesCost_eq_sum] at this ⊢
      omega

theorem modifyOcc_entriesCost {entries es : List (CacheEntry K V)} {i : Nat}
    {g : OccEntry K V → OccEntry K V} (h : modifyOcc entries i g = some es)
    (hg : ∀ e, (g e).cost = e.cost) : entriesCost es = entriesCost entries := by
  obtain ⟨e, he, rfl⟩ := modifyOcc_eq_some.mp h
  have h1 := entriesCost_set (occAt_eq_some_iff.mp he) (.Occupied (g e))
  simp [costOf0, hg] at h1
  omega

theorem entriesCost_append (es l2 : List (CacheEntry K V)) :
    entriesCost (es ++ l2) = entriesCost es + entriesCost l2 := by
  simp [entriesCost_eq_sum]

end EntryLemmas

section CostInvariant

variable {K V : Type} [DecidableEq K]

theorem unlink_preserve {s s' : CostBasedLru K V} {i : Nat}
    (h : unlink_index s i = some s') :
    entriesCost s'.entries = entriesCost s.entries ∧
      s'.entries.length = s.entries.length ∧
      s'.current_cost = s.current_cost ∧ s'.max_cost = s.max_cost ∧
      s'.empty_head = s.empty_head ∧ s'.index = s.index := by
  unfold unlink_index at h
  dsimp only at h
  split at h
  · exact absurd h (by simp)
  · rename_i s1 heq
    have hs1 : s1.entries = s.entries ∧
        s1.current_cost = s.current_cost ∧ s1.max_cost = s.max_cost ∧
        s1.empty_head = s.empty_head ∧ s1.index = s.index := by
      split at heq
      · split at heq
        · injection heq with heq
          subst heq
          exact ⟨rfl, rfl, rfl, rfl, rfl⟩
        · exact absurd heq (by simp)
      · injection heq with heq
        subst heq
        exact ⟨rfl, rfl, rfl, rfl, rfl⟩
    obtain ⟨he1, hc1, hm1, heh1, hi1⟩ := hs1
    split at h
    · split at h
      · split at h
        · split at h
          · rename_i e _ n es hmod
            injection h with h
            subst h
            have hec := modifyOcc_entriesCost hmod (fun _ => rfl)
            have hlen := modifyOcc_length hmod
            simp [hec, he1, hc1, hm1, heh1, hi1, hlen]
          · exact absurd h (by simp)
        · injection h with h
          subst h
          simp [he1, hc1, hm1, heh1, hi1]
      · exact absurd h (by simp)
    · split at h
      · rename_i e hocc
        split at h
        · exact absurd h (by simp)
        · rename_i old_prev hprev
          split at h
          · exact absurd h (by simp)
          · rename_i es hmod
            split at h
            · rename_i n hnext
              split at h
              · rename_i es2 hmod2
                injection h with h
                subst h
                have hec := modifyOcc_entriesCost hmod (fun _ => rfl)
                have hec2 := modifyOcc_entriesCost hmod2 (fun _ => rfl)
                have hlen := modifyOcc_length hmod
                have hlen2 := modifyOcc_length hmod2
                simp [hec, hec2, he1, hc1, hm1, heh1, hi1, hlen, hlen2]
              · exact absurd h (by simp)
            · injection h with h
              subst h
              have hec := modifyOcc_entriesCost hmod (fun _ => rfl)
              have hlen := modifyOcc_length hmod
              simp [hec, he1, hc1, hm1, heh1, hi1, hlen]
      · exact absurd h (by simp)

theorem make_most_recent_preserve {s s' : CostBasedLru K V} {i : Nat}
    (h : make_most_recent s i = some s') :
    entriesCost s'.entries = entriesCost s.entries ∧
      s'.entries.length = s.entries.length ∧
      s'.current_cost = s.current_cost ∧ s'.max_cost = s.max_cost ∧
      s'.empty_head = s.empty_head ∧ s'.index = s.index := by
  unfold make_most_recent at h
  dsimp only at h
  split at h
  · exact absurd h (by simp)
  · rename_i s1 hunl
    obtain ⟨hec1, hlen1, hc1, hm1, heh1, hi1⟩ := unlink_preserve hunl
    split at h
    · exact absurd h (by simp)
    · rename_i es hmod
      have hec2 := modifyOcc_entriesCost hmod (fun _ => rfl)
      have hlen2 := modifyOcc_length hmod
      split at h
      · exact absurd h (by simp)
      · rename_i s3 heq3
        have hs3 : entriesCost s3.entries = entriesCost es ∧
            s3.entries.length = es.length ∧
            s3.current_cost = s1.current_cost ∧ s3.max_cost = s1.max_cost ∧
            s3.empty_head = s1.empty_head ∧ s3.index = s1.index := by
          split at heq3
          · split at heq3
            · rename_i j es2 hmod2
              injection heq3 with heq3
              subst heq3
              have hec3 := modifyOcc_entriesCost hmod2 (fun _ => rfl)
              have hlen3 := modifyOcc_length hmod2
              simp [hec3, hlen3]
            · exact absurd heq3 (by simp)
          · injection heq3 with heq3
            subst heq3
            simp
        obtain ⟨hec3, hlen3, hc3, hm3, heh3, hi3⟩ := hs3
        have hout : s'.entries = s3.entries ∧ s'.current_cost = s3.current_cost ∧
            s'.max_cost = s3.max_cost ∧ s'.empty_head = s3.empty_head ∧
            s'.index = s3.index := by
          injection h with h
          subst h
          split <;> simp
        obtain ⟨ho1, ho2, ho3, ho4, ho5⟩ := hout
        rw [ho1, ho2, ho3, ho4, ho5, hec3, hlen3, hec2, hlen2, hc3, hm3, heh3, hi3]
        exact ⟨hec1, hlen1, hc1, hm1, heh1, hi1⟩

theorem become_empty_cost {s s' : CostBasedLru K V} {i : Nat} {v : V}
    (h : become_empty s i = some (v, s'))
    (hco : s.current_cost = entriesCost s.entries) :
    s'.current_cost = entriesCost s'.entries ∧ s'.max_cost = s.max_cost ∧
      s'.current_cost ≤ s.current_cost ∧ s'.entries.length = s.entries.length := by
  unfold become_empty at h
  split at h
  · exact absurd h (by simp)
  · rename_i s1 hunl
    obtain ⟨hec1, hlen1, hc1, hm1, heh1, hi1⟩ := unlink_preserve hunl
    split at h
    · rename_i e hocc
      injection h with h
      rw [Prod.mk.injEq] at h
      obtain ⟨-, h⟩ := h
      subst h
      have hset := entriesCost_set (occAt_eq_some_iff.mp hocc) (.Empty s1.empty_head)
      simp only [costOf0] at hset
      refine ⟨?_, hm1, ?_, ?_⟩
      · dsimp only
        omega
      · dsimp only
        omega
      · dsimp only
        rw [List.length_set, hlen1]
    · exact absurd h (by simp)

end CostInvariant

section CostInvariantOps

variable {K V : Type} [DecidableEq K]

theorem find_empty_base {s s2 : CostBasedLru K V} {ind : Nat}
    (h : find_empty s = some (ind, s2)) :
    entriesCost s2.entries = entriesCost s.entries ∧
      s2.current_cost = s.current_cost ∧ s2.max_cost = s.max_cost ∧
      (∃ ne, s2.entries[ind]? = some (.Empty ne)) ∧
      s2.entries_head = s.entries_head ∧ s2.entries_tail = s.entries_tail ∧
      s2.index = s.index := by
  unfold find_empty at h
  split at h
  · rename_i e heh
    split at h
    · rename_i ne hget
      injection h with h
      rw [Prod.mk.injEq] at h
      obtain ⟨h1, h2⟩ := h
      subst h1
      subst h2
      exact ⟨rfl, rfl, rfl, ⟨ne, hget⟩, rfl, rfl, rfl⟩
    · exact absurd h (by simp)
  · injection h with h
    rw [Prod.mk.injEq] at h
    obtain ⟨h1, h2⟩ := h
    subst h1
    subst h2
    refine ⟨?_, rfl, rfl, ⟨none, ?_⟩, rfl, rfl, rfl⟩
    · dsimp only
      rw [entriesCost_append]
      simp [entriesCost]
    · dsimp only
      rw [List.getElem?_append_right (le_refl _)]
      simp

theorem evictLoop_le {fuel : Nat} {s s' : CostBasedLru K V}
    (h : evictLoop fuel s = some s') : s'.current_cost ≤ s'.max_cost := by
  induction fuel generalizing s with
  | zero =>
    unfold evictLoop at h
    split at h
    · rename_i hle
      injection h with h
      subst h
      exact hle
    · exact absurd h (by simp)
  | succ n ih =>
    unfold evictLoop at h
    split at h
    · rename_i hle
      injection h with h
      subst h
      exact hle
    · split at h
      · exact absurd h (by simp)
      · rename_i t htail
        split at h
        · exact absurd h (by simp)
        · rename_i p s1 hbe
          exact ih h

theorem evictLoop_cost {fuel : Nat} {s s' : CostBasedLru K V}
    (h : evictLoop fuel s = some s') (hco : CostOk s) :
    CostOk s' ∧ s'.max_cost = s.max_cost := by
  induction fuel generalizing s with
  | zero =>
    unfold evictLoop at h
    split at h
    · injection h with h
      subst h
      exact ⟨hco, rfl⟩
    · exact absurd h (by simp)
  | succ n ih =>
    unfold evictLoop at h
    split at h
    · injection h with h
      subst h
      exact ⟨hco, rfl⟩
    · split at h
      · exact absurd h (by simp)
      · rename_i t htail
        split at h
        · exact absurd h (by simp)
        · rename_i p s1 hbe
          obtain ⟨h1, h2, h3, h4⟩ := become_empty_cost hbe hco
          obtain ⟨h5, h6⟩ := ih h h1
          exact ⟨h5, h6.trans h2⟩

theorem get_cost {s s' : CostBasedLru K V} {k : K} {r : Option V}
    (h : CostBasedLru.get s k = some (r, s')) (hco : CostOk s) :
    CostOk s' ∧ s'.current_cost = s.current_cost ∧ s'.max_cost = s.max_cost := by
  unfold CostBasedLru.get at h
  split at h
  · injection h with h
    rw [Prod.mk.injEq] at h
    obtain ⟨-, h2⟩ := h
    subst h2
    exact ⟨hco, rfl, rfl⟩
  · rename_i ind hlook
    split at h
    · exact absurd h (by simp)
    · rename_i s1 hmmr
      split at h
      · rename_i e hocc
        injection h with h
        rw [Prod.mk.injEq] at h
        obtain ⟨-, h2⟩ := h
        subst h2
        obtain ⟨h1, h2, h3, h4, h5, h6⟩ := make_most_recent_preserve hmmr
        exact ⟨by rw [CostOk, h1, h3]; exact hco, h3, h4⟩
      · exact absurd h (by simp)

theorem remove_cost {s s' : CostBasedLru K V} {k : K} {r : Option V}
    (h : CostBasedLru.remove s k = some (r, s')) (hco : CostOk s) :
    CostOk s' ∧ s'.current_cost ≤ s.current_cost ∧ s'.max_cost = s.max_cost := by
  unfold CostBasedLru.remove at h
  dsimp only at h
  split at h
  · injection h with h
    rw [Prod.mk.injEq] at h
    obtain ⟨-, h2⟩ := h
    subst h2
    exact ⟨hco, le_refl _, rfl⟩
  · rename_i ind hlook
    split at h
    · exact absurd h (by simp)
    · rename_i v s2 hbe
      injection h with h
      rw [Prod.mk.injEq] at h
      obtain ⟨-, h2⟩ := h
      subst h2
      obtain ⟨h1, h2, h3, h4⟩ := become_empty_cost hbe hco
      exact ⟨h1, h3, h2⟩

theorem insert_cost {s s' : CostBasedLru K V} {k : K} {v : V} {c : Nat} {r : Option V}
    (h : CostBasedLru.insert s k v c = some (r, s')) (hco : CostOk s) :
    CostOk s' ∧ s'.current_cost ≤ s'.max_cost ∧ s'.max_cost = s.max_cost := by
  unfold CostBasedLru.insert at h
  dsimp only at h
  split at h
  · exact absurd h (by simp)
  · rename_i ret s1 hrem
    obtain ⟨hco1, hle1, hm1⟩ := remove_cost hrem hco
    split at h
    · exact absurd h (by simp)
    · rename_i ind s2 hfe
      obtain ⟨hec2, hc2, hm2, ⟨ne, hemp⟩, hh2, ht2, hi2⟩ := find_empty_base hfe
      have hco3 : s2.current_cost + c =
          entriesCost (s2.entries.set ind (.Occupied ⟨k, v, none, s2.entries_head, c⟩)) := by
        have hset := entriesCost_set hemp (.Occupied ⟨k, v, none, s2.entries_head, c⟩)
        simp only [costOf0] at hset
        have : s2.current_cost = entriesCost s2.entries := by
          rw [hc2, hec2]
          exact hco1
        omega
      split at h
      · exact absurd h (by simp)
      · rename_i s4 heq4
        have hs4 : CostOk s4 ∧ s4.max_cost = s2.max_cost ∧
            s4.entries_tail = s2.entries_tail := by
          split at heq4
          · rename_i hd hhd
            split at heq4
            · rename_i es hmod
              injection heq4 with heq4
              subst heq4
              have hec := modifyOcc_entriesCost hmod (fun _ => rfl)
              refine ⟨?_, rfl, rfl⟩
              rw [CostOk]
              dsimp only
              rw [hec]
              exact hco3
            · exact absurd heq4 (by simp)
          · injection heq4 with heq4
            subst heq4
            exact ⟨hco3, rfl, rfl⟩
        obtain ⟨hco4, hm4, ht4⟩ := hs4
        split at h
        · exact absurd h (by simp)
        · rename_i s6 hevict
          injection h with h
          rw [Prod.mk.injEq] at h
          obtain ⟨-, h2⟩ := h
          subst h2
          have hco5 : CostOk (if s4.entries_tail = none
              then { s4 with entries_tail := some ind } else s4) := by
            split <;> exact hco4
          have hm5 : (if s4.entries_tail = none
              then { s4 with entries_tail := some ind } else s4).max_cost = s4.max_cost := by
            split <;> rfl
          obtain ⟨h6, h7⟩ := evictLoop_cost hevict hco5
          exact ⟨h6, evictLoop_le hevict, by rw [h7, hm5, hm4, hm2, hm1]⟩

theorem runLruFrom_cost {ops : List (LruOp K V)} :
    ∀ {s s' : CostBasedLru K V}, runLruFrom s ops = some s' →
      CostOk s → s.current_cost ≤ s.max_cost →
      CostOk s' ∧ s'.current_cost ≤ s'.max_cost := by
  induction ops with
  | nil =>
    intro s s' h hco hle
    injection h with h
    subst h
    exact ⟨hco, hle⟩
  | cons op rest ih =>
    intro s s' h hco hle
    unfold runLruFrom at h
    split at h
    · rename_i r s1 hstep
      cases op with
      | get k =>
        obtain ⟨h1, h2, h3⟩ := get_cost hstep hco
        exact ih h h1 (by omega)
      | insert k v c =>
        obtain ⟨h1, h2, h3⟩ := insert_cost hstep hco
        exact ih h h1 h2
      | remove k =>
        obtain ⟨h1, h2, h3⟩ := remove_cost hstep hco
        exact ih h h1 (by omega)
    · exact absurd h (by simp)

end CostInvariantOps

section ClaimC6

variable {K V : Type} [DecidableEq K]

/-- Claim C6: after every externally observable `CostBasedLru` operation
completes (modelled as: whenever a whole sequence of operations on a fresh
cache runs to completion without panicking), `current_cost` equals the sum
of the costs of the occupied slots, and `current_cost ≤ max_cost`.
CONFIRMED — note this holds even on the list-corrupted states produced by
the `make_most_recent` defect, because the cost accounting moves in lockstep
with slot occupancy and the eviction loop only stops below the budget (an
operation that panics does not complete, so it is not covered, matching the
claim's wording). -/
theorem c6_cost_invariant (max_cost : Nat) (ops : List (LruOp K V))
    (s : CostBasedLru K V) (h : runLru max_cost ops = some s) :
    s.current_cost = entriesCost s.entries ∧ s.current_cost ≤ s.max_cost := by
  have h0 : CostOk (CostBasedLru.new max_cost : CostBasedLru K V) := rfl
  exact runLruFrom_cost h h0 (Nat.zero_le _)

/-- Witness for C6 at a concrete operation sequence. -/
theorem c6_cost_invariant_witness :
    ∃ s : CostBasedLru Nat Nat,
      runLru 10 [.insert 1 5 3, .get 1, .insert 2 6 4, .remove 1, .insert 3 7 9] = some s ∧
        s.current_cost = entriesCost s.entries ∧ s.current_cost ≤ s.max_cost := by
  cases h : runLru 10 ([.insert 1 5 3, .get 1, .insert 2 6 4, .remove 1, .insert 3 7 9] :
      List (LruOp Nat Nat)) with
  | none => exact absurd h (by decide)
  | some s => exact ⟨s, rfl, c6_cost_invariant 10 _ s h⟩

end ClaimC6

section ChainDefs

variable {K V : Type} [DecidableEq K]

/-- A fresh cache is well-formed. -/
theorem chain_new (max_cost : Nat) :
    Chain (CostBasedLru.new max_cost : CostBasedLru K V) [] [] := by
  refine ⟨⟨trivial, trivial, rfl, rfl, rfl, List.nodup_nil, ?_⟩, ?_, ?_, rfl⟩
  · intro j
    simp [CostBasedLru.new]
  · intro i hi
    simp at hi
  · intro k i h
    simp [CostBasedLru.new, lookupA] at h

theorem wf_new (max_cost : Nat) : Wf (CostBasedLru.new max_cost : CostBasedLru K V) :=
  ⟨[], [], chain_new max_cost⟩

end ChainDefs

section ChainAlgebra

variable {K V : Type} [DecidableEq K]

theorem nextOf_append (xs ys : List Nat) (n : Option Nat) :
    nextOf (xs ++ ys) n = nextOf xs (nextOf ys n) := by
  cases xs <;> rfl

theorem lastOf_cons : ∀ (xs : List Nat) (x : Nat) (p : Option Nat),
    lastOf (x :: xs) p = lastOf xs (some x) := by
  intro xs
  induction xs with
  | nil =>
    intro x p
    simp [lastOf]
  | cons y ys ih =>
    intro x p
    have h1 : lastOf (x :: y :: ys) p = lastOf (y :: ys) p := by
      unfold lastOf
      rw [List.getLast?_cons_cons]
    rw [h1, ih y p, ih y (some x)]

theorem lastOf_nil (p : Option Nat) : lastOf ([] : List Nat) p = p := rfl

theorem linkedSeg_append (entries : List (CacheEntry K V)) (xs ys : List Nat)
    (p n : Option Nat) :
    linkedSeg entries p (xs ++ ys) n ↔
      linkedSeg entries p xs (nextOf ys n) ∧ linkedSeg entries (lastOf xs p) ys n := by
  induction xs generalizing p with
  | nil => simp [linkedSeg, lastOf_nil]
  | cons x xs ih =>
    simp only [List.cons_append, linkedSeg, List.append_eq, nextOf_append, lastOf_cons,
      ih, and_assoc]

theorem linkedSeg_congr {entries entries' : List (CacheEntry K V)} {l : List Nat}
    (hsame : ∀ i ∈ l, occAt entries' i = occAt entries i) (p n : Option Nat) :
    linkedSeg entries' p l n ↔ linkedSeg entries p l n := by
  induction l generalizing p with
  | nil => simp [linkedSeg]
  | cons x xs ih =>
    have hx := hsame x (List.mem_cons_self x xs)
    have htail : ∀ i ∈ xs, occAt entries' i = occAt entries i :=
      fun i hi => hsame i (List.mem_cons_of_mem x hi)
    simp only [linkedSeg, nodeOk, hx, ih htail]

theorem freeFrom_congr {entries entries' : List (CacheEntry K V)} {f : List Nat}
    (hsame : ∀ i ∈ f, entries'[i]? = entries[i]?) :
    freeFrom entries' f ↔ freeFrom entries f := by
  induction f with
  | nil => simp [freeFrom]
  | cons x xs ih =>
    have hx := hsame x (List.mem_cons_self x xs)
    have htail : ∀ i ∈ xs, entries'[i]? = entries[i]? :=
      fun i hi => hsame i (List.mem_cons_of_mem x hi)
    simp only [freeFrom, hx, ih htail]

theorem linkedSeg_occ {entries : List (CacheEntry K V)} {l : List Nat}
    {p n : Option Nat} (h : linkedSeg entries p l n) :
    ∀ i ∈ l, ∃ e, occAt entries i = some e := by
  induction l generalizing p with
  | nil => intro i hi; simp at hi
  | cons x xs ih =>
    intro i hi
    obtain ⟨hx, hxs⟩ := h
    rcases List.mem_cons.mp hi with hix | hixs
    · subst hix
      unfold nodeOk at hx
      cases hocc : occAt entries i with
      | none => rw [hocc] at hx; exact absurd hx not_false
      | some e => exact ⟨e, rfl⟩
    · exact ih hxs i hixs

theorem freeFrom_empty {entries : List (CacheEntry K V)} {f : List Nat}
    (h : freeFrom entries f) : ∀ i ∈ f, ∃ ne, entries[i]? = some (.Empty ne) := by
  induction f with
  | nil => intro i hi; simp at hi
  | cons x xs ih =>
    intro i hi
    obtain ⟨hx, hxs⟩ := h
    rcases List.mem_cons.mp hi with hix | hixs
    · subst hix
      exact ⟨xs.head?, hx⟩
    · exact ih hxs i hixs

theorem costsOf_congr {entries entries' : List (CacheEntry K V)} {l : List Nat}
    (hsame : ∀ i ∈ l, occAt entries' i = occAt entries i) :
    costsOf entries' l = costsOf entries l := by
  unfold costsOf
  congr 1
  apply List.map_congr_left
  intro i hi
  unfold costAt
  rw [hsame i hi]

theorem costsOf_append (entries : List (CacheEntry K V)) (l1 l2 : List Nat) :
    costsOf entries (l1 ++ l2) = costsOf entries l1 + costsOf entries l2 := by
  simp [costsOf]

end ChainAlgebra

section FrameLemmas

variable {K V : Type} [DecidableEq K]

theorem nextOf_eq_or (l : List Nat) (n : Option Nat) : nextOf l n = l.head?.or n := by
  cases l <;> rfl

theorem lastOf_eq_or (l : List Nat) (p : Option Nat) : lastOf l p = l.getLast?.or p := by
  unfold lastOf
  cases l.getLast? <;> rfl

theorem nodeOk_iff {entries : List (CacheEntry K V)} {i : Nat} {p n : Option Nat} :
    nodeOk entries i p n ↔ ∃ e, occAt entries i = some e ∧ e.prev = p ∧ e.next = n := by
  unfold nodeOk
  cases h : occAt entries i <;> simp

theorem occAt_set_ne {entries : List (CacheEntry K V)} {i j : Nat} (h : j ≠ i)
    (x : CacheEntry K V) : occAt (entries.set i x) j = occAt entries j := by
  unfold occAt
  rw [List.getElem?_set_ne (fun hh => h hh.symm)]

theorem occAt_set_occ {entries : List (CacheEntry K V)} {i : Nat}
    (hlt : i < entries.length) (e : OccEntry K V) :
    occAt (entries.set i (.Occupied e)) i = some e := by
  unfold occAt
  rw [List.getElem?_set_self hlt]

theorem modifyOcc_occData {entries es : List (CacheEntry K V)} {i : Nat}
    {g : OccEntry K V → OccEntry K V} (h : modifyOcc entries i g = some es)
    (hg : ∀ e, (g e).key = e.key ∧ (g e).item = e.item ∧ (g e).cost = e.cost) :
    ∀ j, occData es j = occData entries j := by
  intro j
  by_cases hj : j = i
  · subst hj
    obtain ⟨e, he, hes⟩ := modifyOcc_occAt_self h
    unfold occData
    rw [he, hes]
    simp [(hg e).1, (hg e).2.1, (hg e).2.2]
  · unfold occData
    rw [modifyOcc_occAt_ne h hj]

theorem costAt_congr_data {entries entries' : List (CacheEntry K V)} {j : Nat}
    (h : occData entries' j = occData entries j) :
    costAt entries' j = costAt entries j := by
  unfold costAt
  unfold occData at h
  cases h1 : occAt entries' j <;> cases h2 : occAt entries j <;>
    rw [h1, h2] at h <;> simp_all

theorem costsOf_congr_data {entries entries' : List (CacheEntry K V)} {l : List Nat}
    (h : ∀ i ∈ l, occData entries' i = occData entries i) :
    costsOf entries' l = costsOf entries l := by
  unfold costsOf
  congr 1
  apply List.map_congr_left
  intro i hi
  exact costAt_congr_data (h i hi)

theorem occData_some_of_occAt {entries : List (CacheEntry K V)} {j : Nat}
    {e : OccEntry K V} (h : occAt entries j = some e) :
    occData entries j = some (e.key, e.item, e.cost) := by
  unfold occData
  rw [h]
  rfl

/-- Transfer `occAt` facts along an `occData` equality: occupancy, key, item
and cost agree even though the link fields may differ. -/
theorem occAt_of_occData {entries entries' : List (CacheEntry K V)} {j : Nat}
    (h : occData entries' j = occData entries j) {e : OccEntry K V}
    (he : occAt entries j = some e) :
    ∃ e', occAt entries' j = some e' ∧ e'.key = e.key ∧ e'.item = e.item ∧
      e'.cost = e.cost := by
  unfold occData at h
  rw [he] at h
  cases h' : occAt entries' j with
  | none => rw [h'] at h; simp at h
  | some e' =>
    rw [h'] at h
    simp at h
    exact ⟨e', rfl, h.1, h.2.1, h.2.2⟩

theorem occData_none_iff {entries entries' : List (CacheEntry K V)} {j : Nat}
    (h : occData entries' j = occData entries j) :
    occAt entries' j = none ↔ occAt entries j = none := by
  unfold occData at h
  cases h1 : occAt entries' j <;> cases h2 : occAt entries j <;>
    rw [h1, h2] at h <;> simp_all

end FrameLemmas

section SurgeryLemmas

variable {K V : Type} [DecidableEq K]

theorem linkedSeg_frame_mod {entries es : List (CacheEntry K V)} {j : Nat}
    {g : OccEntry K V → OccEntry K V} (hmod : modifyOcc entries j g = some es)
    {l : List Nat} (hj : j ∉ l) (p n : Option Nat) :
    linkedSeg es p l n ↔ linkedSeg entries p l n :=
  linkedSeg_congr (fun i hi => modifyOcc_occAt_ne hmod (fun hij => hj (hij ▸ hi))) p n

theorem freeFrom_frame_mod {entries es : List (CacheEntry K V)} {j : Nat}
    {g : OccEntry K V → OccEntry K V} (hmod : modifyOcc entries j g = some es)
    {f : List Nat} (hj : j ∉ f) :
    freeFrom es f ↔ freeFrom entries f :=
  freeFrom_congr (fun i hi => modifyOcc_getElem?_ne hmod (fun hij => hj (hij ▸ hi)))

/-- Re-point the `next` of the last node of a linked segment. -/
theorem linkedSeg_retarget_last {entries es : List (CacheEntry K V)} {a : List Nat}
    {la : Nat} {p n n' : Option Nat}
    (ha : linkedSeg entries p a n) (hgl : a.getLast? = some la) (hnd : a.Nodup)
    (hmod : modifyOcc entries la (fun o => { o with next := n' }) = some es) :
    linkedSeg es p a n' := by
  obtain ⟨ta, rfl⟩ := List.getLast?_eq_some_iff.mp hgl
  have hla_not_ta : la ∉ ta := by
    rw [List.nodup_append] at hnd
    exact fun hmem => hnd.2.2 hmem (List.mem_cons_self la [])
  rw [linkedSeg_append] at ha ⊢
  obtain ⟨hta, hla⟩ := ha
  constructor
  · rw [linkedSeg_frame_mod hmod hla_not_ta]
    have : nextOf [la] n' = nextOf [la] n := rfl
    exact this ▸ hta
  · simp only [linkedSeg, nextOf, and_true] at hla ⊢
    obtain ⟨e, he, hep, hen⟩ := nodeOk_iff.mp hla
    obtain ⟨e2, he2, hes⟩ := modifyOcc_eq_some.mp hmod
    rw [he] at he2
    injection he2 with he2
    subst he2
    refine nodeOk_iff.mpr ⟨{ e with next := n' }, ?_, hep, rfl⟩
    rw [hes]
    exact occAt_set_occ (occAt_lt_length he) _

/-- Re-point the `prev` of the first node of a linked segment. -/
theorem linkedSeg_retarget_head {entries es : List (CacheEntry K V)} {hb : Nat}
    {tb : List Nat} {p p' n : Option Nat}
    (hc : linkedSeg entries p (hb :: tb) n) (hnd : (hb :: tb).Nodup)
    (hmod : modifyOcc entries hb (fun o => { o with prev := p' }) = some es) :
    linkedSeg es p' (hb :: tb) n := by
  simp only [linkedSeg] at hc ⊢
  obtain ⟨hnode, htb⟩ := hc
  obtain ⟨e, he, hep, hen⟩ := nodeOk_iff.mp hnode
  obtain ⟨e2, he2, hes⟩ := modifyOcc_eq_some.mp hmod
  rw [he] at he2
  injection he2 with he2
  subst he2
  constructor
  · refine nodeOk_iff.mpr ⟨{ e with prev := p' }, ?_, rfl, hen⟩
    rw [hes]
    exact occAt_set_occ (occAt_lt_length he) _
  · rw [linkedSeg_frame_mod hmod (List.nodup_cons.mp hnd).1]
    exact htb

end SurgeryLemmas

section UnlinkSpec

variable {K V : Type} [DecidableEq K]

/-- Specification of `unlink_index` on a structurally well-formed state: it
succeeds, detaches slot `i` from the chain `a ++ i :: b` leaving `a ++ b`,
and changes nothing but the neighbours' link fields (and the head/tail
pointers).  This relies on the chain links being exact, in particular on the
`prev` of the node actually being its predecessor. -/
theorem unlink_spec {s : CostBasedLru K V} {a b f : List Nat} {i : Nat}
    (hS : ShapeInv s (a ++ i :: b) f) :
    ∃ s', unlink_index s i = some s' ∧
      ShapeInvX s' (a ++ b) f i ∧
      s'.entries.length = s.entries.length ∧
      s'.index = s.index ∧ s'.current_cost = s.current_cost ∧
      s'.max_cost = s.max_cost ∧
      (∀ j, occData s'.entries j = occData s.entries j) ∧
      occAt s'.entries i = occAt s.entries i := by
  obtain ⟨hlink, hfree, hhead, htail, hehead, hnodup, hcover⟩ := hS
  have hndl : (a ++ i :: b).Nodup := hnodup.of_append_left
  have hndf : f.Nodup := hnodup.of_append_right
  have hdisj : ∀ x ∈ a ++ i :: b, x ∉ f := by
    intro x hx hxf
    rw [List.nodup_append] at hnodup
    exact hnodup.2.2 hx hxf
  have hand : a.Nodup := hndl.of_append_left
  have hibnd : (i :: b).Nodup := hndl.of_append_right
  have hbnd : b.Nodup := (List.nodup_cons.mp hibnd).2
  have hib : i ∉ b := (List.nodup_cons.mp hibnd).1
  have hdisjab : ∀ x ∈ a, x ∉ i :: b := by
    intro x hx
    rw [List.nodup_append] at hndl
    exact fun hc => hndl.2.2 hx hc
  have hia : i ∉ a := fun hmem => hdisjab i hmem (List.mem_cons_self i b)
  have hif : i ∉ f := hdisj i (by simp)
  have hsub : ((a ++ b) ++ f).Sublist ((a ++ i :: b) ++ f) := by
    refine List.Sublist.append_right ?_ f
    exact List.Sublist.append_left (List.sublist_cons_self i b) a
  have hnodup' : ((a ++ b) ++ f).Nodup := hnodup.sublist hsub
  have hnotin' : i ∉ (a ++ b) ++ f := by
    simp only [List.mem_append]
    rintro ((h | h) | h)
    · exact hia h
    · exact hib h
    · exact hif h
  rw [linkedSeg_append] at hlink
  obtain ⟨hlinka, hlinkib⟩ := hlink
  simp only [linkedSeg] at hlinkib
  obtain ⟨hnodei, hlinkb⟩ := hlinkib
  obtain ⟨e, he, hprev, hnext⟩ := nodeOk_iff.mp hnodei
  have hlinka' : linkedSeg s.entries none a (some i) := hlinka
  cases b with
  | nil =>
    have htail_eq : s.entries_tail = some i := by
      rw [htail, List.getLast?_concat]
    by_cases hA : a = []
    · -- CASE A: singleton chain [i]
      subst hA
      have hprevA : e.prev = none := by rw [hprev]; rfl
      have hnextA : e.next = none := by rw [hnext]; rfl
      have hheadA : s.entries_head = some i := by rw [hhead]; rfl
      have heval : unlink_index s i =
          some { s with entries_tail := none, entries_head := none } := by
        unfold unlink_index
        dsimp only
        rw [if_pos htail_eq, he]
        dsimp only
        rw [if_pos hheadA, he]
        dsimp only
        rw [hprevA, hnextA]
      refine ⟨_, heval, ?_, ?_, ?_, ?_, ?_, ?_, ?_⟩
      · refine ⟨trivial, hfree, rfl, rfl, hehead, by simpa using hndf, by simpa using hif, ?_⟩
        intro j
        dsimp only
        rw [hcover j]
        simp [eq_comm, or_comm]
      · rfl
      · rfl
      · rfl
      · rfl
      · intro j
        rfl
      · rfl
    · -- CASE C: i is the tail, a nonempty
      obtain ⟨la, hla⟩ : ∃ la, a.getLast? = some la := by
        cases hgl : a.getLast? with
        | none => exact absurd (List.getLast?_eq_none_iff.mp hgl) hA
        | some x => exact ⟨x, rfl⟩
      have hla_mem : la ∈ a := List.mem_of_mem_getLast? (by simp [hla, Option.mem_def])
      obtain ⟨y, hy⟩ : ∃ y, a.head? = some y := by
        cases a with
        | nil => exact absurd rfl hA
        | cons z zs => exact ⟨z, rfl⟩
      have hy_mem : y ∈ a := List.mem_of_mem_head? (by simp [hy, Option.mem_def])
      have hheadC : s.entries_head = some y := by
        rw [hhead, List.head?_append, hy]
        rfl
      have hheadC' : ¬ (s.entries_head = some i) := by
        rw [hheadC]
        intro hc
        injection hc with hc
        exact hia (hc ▸ hy_mem)
      have hprevC : e.prev = some la := by
        rw [hprev, lastOf_eq_or, hla]
        rfl
      have hnextC : e.next = none := by rw [hnext]; rfl
      obtain ⟨ela, hela⟩ := linkedSeg_occ hlinka' la hla_mem
      have hmodC : modifyOcc s.entries la (fun o => { o with next := (none : Option Nat) }) =
          some (s.entries.set la (.Occupied { ela with next := none })) := by
        unfold modifyOcc
        rw [hela]
      have heval : unlink_index s i =
          some { s with
            entries_tail := some la,
            entries := s.entries.set la (.Occupied { ela with next := none }) } := by
        unfold unlink_index
        dsimp only
        rw [if_pos htail_eq, he]
        dsimp only
        rw [if_neg hheadC', he]
        dsimp only
        rw [hprevC, hnextC]
        dsimp only
        rw [hmodC]
      refine ⟨_, heval, ?_, ?_, ?_, ?_, ?_, ?_, ?_⟩
      · refine ⟨?_, ?_, ?_, ?_, hehead, by simpa using hnodup', by simpa using hnotin', ?_⟩
        · -- linked: a with last's next set to none
          dsimp only
          have hret := linkedSeg_retarget_last hlinka' hla hand hmodC
          simpa using hret
        · dsimp only
          rw [freeFrom_frame_mod hmodC (hdisj la (by simp [hla_mem]))]
          exact hfree
        · dsimp only
          rw [hheadC]
          simp [hy]
        · dsimp only
          simp only [List.append_nil]
          rw [hla]
        · intro j
          dsimp only
          rw [List.length_set, hcover j]
          simp only [List.append_nil, List.mem_append, List.mem_cons, List.not_mem_nil,
            or_false]
          tauto
      · dsimp only
        rw [List.length_set]
      · rfl
      · rfl
      · rfl
      · intro j
        dsimp only
        exact modifyOcc_occData hmodC (fun o => ⟨rfl, rfl, rfl⟩) j
      · dsimp only
        exact modifyOcc_occAt_ne hmodC (fun hc => hia (hc ▸ hla_mem))
  | cons hb tb =>
    have hb_gl : ∃ x, (hb :: tb).getLast? = some x ∧ x ∈ hb :: tb := by
      cases hgl : (hb :: tb).getLast? with
      | none => exact absurd (List.getLast?_eq_none_iff.mp hgl) (by simp)
      | some x =>
        exact ⟨x, rfl, List.mem_of_mem_getLast? (by simp [hgl, Option.mem_def])⟩
    obtain ⟨x, hxgl, hx_mem⟩ := hb_gl
    have htailD : s.entries_tail = some x := by
      rw [htail, List.getLast?_append, List.getLast?_cons_cons, hxgl]
      rfl
    have htailD' : ¬ (s.entries_tail = some i) := by
      rw [htailD]
      intro hc
      injection hc with hc
      exact hib (hc ▸ hx_mem)
    have hnextD : e.next = some hb := by rw [hnext]; rfl
    obtain ⟨ehb, hehb⟩ := linkedSeg_occ hlinkb hb (by simp)
    have hi_ne_hb : i ≠ hb := fun hc => hib (hc ▸ List.mem_cons_self hb tb)
    by_cases hA : a = []
    · -- CASE B: i is the head, b nonempty
      subst hA
      have hheadB : s.entries_head = some i := by rw [hhead]; rfl
      have hmodB : modifyOcc s.entries hb (fun o => { o with prev := none }) =
          some (s.entries.set hb (.Occupied { ehb with prev := none })) := by
        unfold modifyOcc
        rw [hehb]
      have heval : unlink_index s i =
          some { s with
            entries_head := some hb,
            entries := s.entries.set hb (.Occupied { ehb with prev := none }) } := by
        unfold unlink_index
        dsimp only
        rw [if_neg htailD']
        dsimp only
        rw [if_pos hheadB, he]
        dsimp only
        rw [hnextD]
        dsimp only
        rw [hmodB]
      refine ⟨_, heval, ?_, ?_, ?_, ?_, ?_, ?_, ?_⟩
      · refine ⟨?_, ?_, ?_, ?_, hehead, by simpa using hnodup', by simpa using hnotin', ?_⟩
        · dsimp only
          exact linkedSeg_retarget_head hlinkb hbnd hmodB
        · dsimp only
          rw [freeFrom_frame_mod hmodB (hdisj hb (by simp))]
          exact hfree
        · rfl
        · dsimp only
          rw [htailD, List.nil_append, hxgl]
        · intro j
          dsimp only
          rw [List.length_set, hcover j]
          simp only [List.nil_append, List.mem_cons, List.mem_append]
          tauto
      · dsimp only
        rw [List.length_set]
      · rfl
      · rfl
      · rfl
      · intro j
        dsimp only
        exact modifyOcc_occData hmodB (fun o => ⟨rfl, rfl, rfl⟩) j
      · dsimp only
        exact modifyOcc_occAt_ne hmodB hi_ne_hb
    · -- CASE D: i is interior, a and b both nonempty
      obtain ⟨la, hla⟩ : ∃ la, a.getLast? = some la := by
        cases hgl : a.getLast? with
        | none => exact absurd (List.getLast?_eq_none_iff.mp hgl) hA
        | some z => exact ⟨z, rfl⟩
      have hla_mem : la ∈ a := List.mem_of_mem_getLast? (by simp [hla, Option.mem_def])
      obtain ⟨y, hy⟩ : ∃ y, a.head? = some y := by
        cases a with
        | nil => exact absurd rfl hA
        | cons z zs => exact ⟨z, rfl⟩
      have hy_mem : y ∈ a := List.mem_of_mem_head? (by simp [hy, Option.mem_def])
      have hheadD : s.entries_head = some y := by
        rw [hhead, List.head?_append, hy]
        rfl
      have hheadD' : ¬ (s.entries_head = some i) := by
        rw [hheadD]
        intro hc
        injection hc with hc
        exact hia (hc ▸ hy_mem)
      have hprevD : e.prev = some la := by
        rw [hprev, lastOf_eq_or, hla]
        rfl
      have hla_not_b : la ∉ hb :: tb := fun hmem =>
        hdisjab la hla_mem (List.mem_cons_of_mem i hmem)
      have hla_ne_hb : la ≠ hb := fun hc => hla_not_b (hc ▸ List.mem_cons_self hb tb)
      have hhb_not_a : hb ∉ a := fun hmem =>
        hdisjab hb hmem (List.mem_cons_of_mem i (List.mem_cons_self hb tb))
      have hi_ne_la : i ≠ la := fun hc => hia (hc ▸ hla_mem)
      obtain ⟨ela, hela⟩ := linkedSeg_occ hlinka' la hla_mem
      have hmodD : modifyOcc s.entries la (fun o => { o with next := some hb }) =
          some (s.entries.set la (.Occupied { ela with next := some hb })) := by
        unfold modifyOcc
        rw [hela]
      have hehb2 : occAt (s.entries.set la (.Occupied { ela with next := some hb })) hb =
          some ehb := by
        rw [occAt_set_ne (fun hc => hla_ne_hb hc.symm)]
        exact hehb
      have hmodD2 : modifyOcc (s.entries.set la (.Occupied { ela with next := some hb })) hb
          (fun o => { o with prev := some la }) =
          some ((s.entries.set la (.Occupied { ela with next := some hb })).set hb
            (.Occupied { ehb with prev := some la })) := by
        unfold modifyOcc
        rw [hehb2]
      have heval : unlink_index s i =
          some { s with
            entries := (s.entries.set la (.Occupied { ela with next := some hb })).set hb
              (.Occupied { ehb with prev := some la }) } := by
        unfold unlink_index
        dsimp only
        rw [if_neg htailD']
        dsimp only
        rw [if_neg hheadD', he]
        dsimp only
        rw [hprevD, hnextD]
        dsimp only
        rw [hmodD]
        dsimp only
        rw [hmodD2]
      refine ⟨_, heval, ?_, ?_, ?_, ?_, ?_, ?_, ?_⟩
      · refine ⟨?_, ?_, ?_, ?_, hehead, by simpa using hnodup', by simpa using hnotin', ?_⟩
        · -- linked: a ++ b with the seam welded
          dsimp only
          rw [linkedSeg_append]
          constructor
          · have h1 : linkedSeg (s.entries.set la (.Occupied { ela with next := some hb }))
                none a (some hb) :=
              linkedSeg_retarget_last hlinka' hla hand hmodD
            rw [linkedSeg_frame_mod hmodD2 hhb_not_a]
            exact h1
          · have h2 : linkedSeg (s.entries.set la (.Occupied { ela with next := some hb }))
                (some i) (hb :: tb) none := by
              rw [linkedSeg_frame_mod hmodD hla_not_b]
              exact hlinkb
            have h3 := linkedSeg_retarget_head h2 hbnd hmodD2
            have h4 : lastOf a none = some la := by
              rw [lastOf_eq_or, hla]
              rfl
            rw [h4]
            exact h3
        · dsimp only
          rw [freeFrom_frame_mod hmodD2 (hdisj hb (by simp)),
            freeFrom_frame_mod hmodD (hdisj la (by simp [hla_mem]))]
          exact hfree
        · dsimp only
          rw [hheadD, List.head?_append, hy]
          simp
        · dsimp only
          rw [htailD, List.getLast?_append, hxgl]
          rfl
        · intro j
          dsimp only
          rw [List.length_set, List.length_set, hcover j]
          simp only [List.mem_cons, List.mem_append]
          tauto
      · dsimp only
        rw [List.length_set, List.length_set]
      · rfl
      · rfl
      · rfl
      · intro j
        dsimp only
        rw [modifyOcc_occData hmodD2 (fun o => ⟨rfl, rfl, rfl⟩) j,
          modifyOcc_occData hmodD (fun o => ⟨rfl, rfl, rfl⟩) j]
      · dsimp only
        rw [modifyOcc_occAt_ne hmodD2 hi_ne_hb, modifyOcc_occAt_ne hmodD hi_ne_la]

end UnlinkSpec

section BecomeEmptySpec

variable {K V : Type} [DecidableEq K]

/-- Specification of `become_empty` on a structurally well-formed state: it
returns the stored value, moves the slot onto the free list, removes the key
from the index and subtracts the cost. -/
theorem become_empty_spec {s : CostBasedLru K V} {a b f : List Nat} {i : Nat}
    (hS : ShapeInv s (a ++ i :: b) f) {e : OccEntry K V}
    (he : occAt s.entries i = some e) :
    ∃ s', become_empty s i = some (e.item, s') ∧
      ShapeInv s' (a ++ b) (i :: f) ∧
      s'.entries.length = s.entries.length ∧
      s'.index = removeA s.index e.key ∧
      s'.current_cost = s.current_cost - e.cost ∧
      s'.max_cost = s.max_cost ∧
      (∀ j, j ≠ i → occData s'.entries j = occData s.entries j) ∧
      occAt s'.entries i = none := by
  obtain ⟨s1, heval1, hX, hlen1, hidx1, hcc1, hmc1, hdata1, hocc1⟩ := unlink_spec hS
  obtain ⟨hlink, hfree, hhead, htail, hehead, hnodup, hnotin, hcover⟩ := hX
  have he1 : occAt s1.entries i = some e := by rw [hocc1]; exact he
  have hlt1 : i < s1.entries.length := occAt_lt_length he1
  have hnotab : i ∉ a ++ b := fun hmem => hnotin (List.mem_append_left f hmem)
  have hnotF : i ∉ f := fun hmem => hnotin (List.mem_append_right _ hmem)
  have heval : become_empty s i =
      some (e.item, { s1 with
        entries := s1.entries.set i (.Empty s1.empty_head),
        empty_head := some i,
        index := removeA s1.index e.key,
        current_cost := s1.current_cost - e.cost }) := by
    unfold become_empty
    rw [heval1]
    dsimp only
    rw [he1]
  refine ⟨_, heval, ?_, ?_, ?_, ?_, ?_, ?_, ?_⟩
  · have hneab : ∀ j ∈ a ++ b, j ≠ i := fun j hj hc => by
      subst hc
      exact hnotab hj
    have hnef : ∀ j ∈ f, i ≠ j := fun j hj hc => by
      subst hc
      exact hnotF hj
    refine ⟨?_, ?_, hhead, htail, rfl, ?_, ?_⟩
    · dsimp only
      rw [linkedSeg_congr (fun j hj => occAt_set_ne (hneab j hj) _)]
      exact hlink
    · dsimp only
      refine ⟨?_, ?_⟩
      · rw [List.getElem?_set_self hlt1, hehead]
      · rw [freeFrom_congr (fun j hj => List.getElem?_set_ne (hnef j hj))]
        exact hfree
    · have hperm : ((a ++ b) ++ i :: f).Perm (i :: ((a ++ b) ++ f)) := List.perm_middle
      rw [hperm.nodup_iff]
      exact List.nodup_cons.mpr ⟨hnotin, hnodup⟩
    · intro j
      dsimp only
      rw [List.length_set, hcover j]
      simp only [List.mem_append, List.mem_cons]
      tauto
  · dsimp only
    rw [List.length_set, hlen1]
  · dsimp only
    rw [hidx1]
  · dsimp only
    rw [hcc1]
  · dsimp only
    rw [hmc1]
  · intro j hj
    dsimp only
    unfold occData
    rw [occAt_set_ne hj]
    exact hdata1 j
  · dsimp only
    unfold occAt
    rw [List.getElem?_set_self hlt1]

end BecomeEmptySpec

section ChainRemove

variable {K V : Type} [DecidableEq K]

/-- Rebuilding the index conditions after the entry of key `k` (at slot `i`)
has been deleted: the other bindings are untouched. -/
theorem idx_after_remove {s s' : CostBasedLru K V} {a b f : List Nat} {i : Nat}
    {k : K} {e : OccEntry K V} (hC : Chain s (a ++ i :: b) f)
    (he : occAt s.entries i = some e) (hek : e.key = k)
    (hlook : lookupA s.index k = some i)
    (hidx' : s'.index = removeA s.index k)
    (hdata : ∀ j, j ≠ i → occData s'.entries j = occData s.entries j) :
    (∀ j ∈ a ++ b, ∀ e', occAt s'.entries j = some e' →
        lookupA s'.index e'.key = some j) ∧
    (∀ (k' : K) (i' : Nat), lookupA s'.index k' = some i' →
      i' ∈ a ++ b ∧ ∃ e', occAt s'.entries i' = some e' ∧ e'.key = k') := by
  have hnotab : i ∉ a ++ b := by
    have hnd : (a ++ i :: b).Nodup := hC.nodup.of_append_left
    intro hmem
    rcases List.mem_append.mp hmem with hmem | hmem
    · rw [List.nodup_append] at hnd
      exact hnd.2.2 hmem (List.mem_cons_self i b)
    · exact (List.nodup_cons.mp hnd.of_append_right).1 hmem
  constructor
  · intro j hj e' he'
    have hji : j ≠ i := fun hc => by
      subst hc
      exact hnotab hj
    obtain ⟨e0, he0, hkey0, -, -⟩ := occAt_of_occData (hdata j hji).symm he'
    have hj_mem : j ∈ a ++ i :: b := by
      rcases List.mem_append.mp hj with h | h
      · exact List.mem_append_left _ h
      · exact List.mem_append_right _ (List.mem_cons_of_mem i h)
    have hlk0 : lookupA s.index e0.key = some j := hC.idx_mem j hj_mem e0 he0
    have hkne : e0.key ≠ k := fun hc => by
      rw [hc] at hlk0
      rw [hlook] at hlk0
      injection hlk0 with hlk0
      exact hji hlk0.symm
    rw [hidx', ← hkey0, lookupA_removeA_ne _ hkne]
    exact hlk0
  · intro k' i' hlk'
    rw [hidx'] at hlk'
    have hk'ne : k' ≠ k := fun hc => by
      rw [hc, lookupA_removeA_self] at hlk'
      exact Option.noConfusion hlk'
    rw [lookupA_removeA_ne _ hk'ne] at hlk'
    obtain ⟨hi'_mem, e0, he0, hkey0⟩ := hC.idx_sound k' i' hlk'
    have hi'ne : i' ≠ i := fun hc => by
      subst hc
      rw [he] at he0
      injection he0 with he0
      subst he0
      exact hk'ne (hkey0 ▸ hek.symm).symm
    refine ⟨?_, ?_⟩
    · rcases List.mem_append.mp hi'_mem with h | h
      · exact List.mem_append_left _ h
      · rcases List.mem_cons.mp h with h | h
        · exact absurd h hi'ne
        · exact List.mem_append_right _ h
    · obtain ⟨e', he', hk', -, -⟩ := occAt_of_occData (hdata i' hi'ne) he0
      exact ⟨e', he', hk'.trans hkey0⟩

/-- Cost-sum bookkeeping after removing slot `i` from the chain. -/
theorem cost_after_remove {s s' : CostBasedLru K V} {a b f : List Nat} {i : Nat}
    {e : OccEntry K V} (hC : Chain s (a ++ i :: b) f)
    (he : occAt s.entries i = some e)
    (hcc : s'.current_cost = s.current_cost - e.cost)
    (hdata : ∀ j, j ≠ i → occData s'.entries j = occData s.entries j) :
    s'.current_cost = costsOf s'.entries (a ++ b) := by
  have hnotab : i ∉ a ++ b := by
    have hnd : (a ++ i :: b).Nodup := hC.nodup.of_append_left
    intro hmem
    rcases List.mem_append.mp hmem with hmem | hmem
    · rw [List.nodup_append] at hnd
      exact hnd.2.2 hmem (List.mem_cons_self i b)
    · exact (List.nodup_cons.mp hnd.of_append_right).1 hmem
  have hcost := hC.cost_eq
  rw [costsOf_append] at hcost
  have hcons : costsOf s.entries (i :: b) = e.cost + costsOf s.entries b := by
    unfold costsOf costAt
    simp [he]
  have hsame : costsOf s'.entries (a ++ b) = costsOf s.entries (a ++ b) := by
    apply costsOf_congr_data
    intro j hj
    refine hdata j (fun hc => ?_)
    subst hc
    exact hnotab hj
  rw [hsame, costsOf_append]
  rw [hcons] at hcost
  omega

/-- `become_empty` at the tail of a fully well-formed chain preserves full
well-formedness. -/
theorem become_empty_chain {s : CostBasedLru K V} {a b f : List Nat} {i : Nat}
    (hC : Chain s (a ++ i :: b) f) {e : OccEntry K V}
    (he : occAt s.entries i = some e) :
    ∃ s', become_empty s i = some (e.item, s') ∧ Chain s' (a ++ b) (i :: f) ∧
      s'.entries.length = s.entries.length ∧ s'.max_cost = s.max_cost ∧
      s'.current_cost = s.current_cost - e.cost ∧
      s'.index = removeA s.index e.key ∧
      (∀ j, j ≠ i → occData s'.entries j = occData s.entries j) := by
  obtain ⟨s', heval, hS', hlen, hidx, hcc, hmc, hdata, hoccn⟩ :=
    become_empty_spec hC.toShapeInv he
  have hlook : lookupA s.index e.key = some i :=
    hC.idx_mem i (by simp) e he
  obtain ⟨hmem, hsound⟩ := idx_after_remove hC he rfl hlook hidx hdata
  have hcost := cost_after_remove hC he hcc hdata
  exact ⟨s', heval, ⟨hS', hmem, hsound, hcost⟩, hlen, hmc, hcc, hidx, hdata⟩

/-- Full specification of `CostBasedLru::remove` from a well-formed state. -/
theorem remove_chain {s : CostBasedLru K V} {l f : List Nat} (hC : Chain s l f)
    (k : K) :
    (lookupA s.index k = none → CostBasedLru.remove s k = some (none, s)) ∧
    (∀ i, lookupA s.index k = some i →
      ∃ e a b s', occAt s.entries i = some e ∧ e.key = k ∧ l = a ++ i :: b ∧
        CostBasedLru.remove s k = some (some e.item, s') ∧
        Chain s' (a ++ b) (i :: f) ∧
        s'.entries.length = s.entries.length ∧
        s'.index = removeA s.index k ∧
        s'.current_cost = s.current_cost - e.cost ∧ s'.max_cost = s.max_cost ∧
        (∀ j, j ≠ i → occData s'.entries j = occData s.entries j)) := by
  constructor
  · intro hnone
    unfold CostBasedLru.remove
    rw [hnone]
  · intro i hlook
    obtain ⟨hmem_l, e, he, hek⟩ := hC.idx_sound k i hlook
    obtain ⟨a, b, rfl⟩ := List.append_of_mem hmem_l
    -- the state with the key already removed from the index
    have hS0 := hC.toShapeInv
    have hS1 : ShapeInv ({ s with index := removeA s.index k } : CostBasedLru K V)
        (a ++ i :: b) f :=
      ⟨hS0.linked, hS0.freed, hS0.head_eq, hS0.tail_eq, hS0.ehead_eq, hS0.nodup, hS0.cover⟩
    obtain ⟨s', heval, hS', hlen, hidx, hcc, hmc, hdata, hoccn⟩ := become_empty_spec hS1 he
    have hidx' : s'.index = removeA s.index k := by
      rw [hidx]
      dsimp only
      rw [hek, removeA_removeA]
    obtain ⟨hmem, hsound⟩ := idx_after_remove hC he hek hlook hidx' hdata
    have hcost := cost_after_remove hC he hcc hdata
    refine ⟨e, a, b, s', he, hek, rfl, ?_, ⟨hS', hmem, hsound, hcost⟩, hlen, hidx', hcc,
      hmc, hdata⟩
    unfold CostBasedLru.remove
    rw [hlook]
    dsimp only
    rw [heval]

end ChainRemove

section EvictChain

variable {K V : Type} [DecidableEq K]

theorem shape_length_le {s : CostBasedLru K V} {l f : List Nat}
    (hS : ShapeInv s l f) : l.length ≤ s.entries.length := by
  have hnd : l.Nodup := hS.nodup.of_append_left
  have hsub : l.toFinset ⊆ Finset.range s.entries.length := by
    intro x hx
    rw [List.mem_toFinset] at hx
    rw [Finset.mem_range]
    exact (hS.cover x).mpr (Or.inl hx)
  have h1 := Finset.card_le_card hsub
  rw [Finset.card_range] at h1
  rwa [List.toFinset_card_of_nodup hnd] at h1

/-- The eviction loop from a well-formed state: it terminates without
panicking, keeps some prefix of the MRU chain (the survivors), stops at or
below the budget, and every strictly longer prefix would still be over
budget (so it evicts exactly the longest over-budget suffix, in
tail-to-head order). -/
theorem evictLoop_chain : ∀ (fuel : Nat) {s : CostBasedLru K V} {l f : List Nat},
    Chain s l f → l.length ≤ fuel →
    ∃ j s' f', evictLoop fuel s = some s' ∧ j ≤ l.length ∧
      Chain s' (l.take j) f' ∧
      s'.max_cost = s.max_cost ∧ s'.entries.length = s.entries.length ∧
      (∀ i ∈ l.take j, occData s'.entries i = occData s.entries i) ∧
      s'.current_cost ≤ s.max_cost ∧
      (∀ j2, j < j2 → j2 ≤ l.length → s.max_cost < costsOf s.entries (l.take j2)) := by
  intro fuel
  induction fuel with
  | zero =>
    intro s l f hC hfuel
    have hl : l = [] := List.eq_nil_of_length_eq_zero (Nat.le_zero.mp hfuel)
    subst hl
    have hcc : s.current_cost = 0 := by
      have := hC.cost_eq
      simpa [costsOf] using this
    refine ⟨0, s, f, ?_, le_refl _, ?_, rfl, rfl, ?_, ?_, ?_⟩
    · unfold evictLoop
      rw [if_pos (by omega)]
    · simpa using hC
    · intro i hi
      rfl
    · omega
    · intro j2 h1 h2
      omega
  | succ fuel ih =>
    intro s l f hC hfuel
    by_cases hle : s.current_cost ≤ s.max_cost
    · refine ⟨l.length, s, f, ?_, le_refl _, ?_, rfl, rfl, ?_, hle, ?_⟩
      · unfold evictLoop
        rw [if_pos hle]
      · rw [List.take_length]
        exact hC
      · intro i hi
        rfl
      · intro j2 h1 h2
        omega
    · -- over budget: the tail is evicted and we recurse
      have hlne : l ≠ [] := by
        intro hnil
        subst hnil
        have := hC.cost_eq
        simp [costsOf] at this
        omega
      rcases List.eq_nil_or_concat l with rfl | ⟨init, last, hl⟩
      · exact absurd rfl hlne
      rw [List.concat_eq_append] at hl
      subst hl
      have htail : s.entries_tail = some last := by
        rw [hC.tail_eq, List.getLast?_concat]
      have hlast_mem : last ∈ init ++ [last] := by simp
      obtain ⟨e, he⟩ := linkedSeg_occ hC.linked last hlast_mem
      have hCsplit : Chain s (init ++ last :: []) f := hC
      obtain ⟨s1, heval1, hC1', hlen1, hmc1, hcc1, hidx1, hdata1⟩ :=
        become_empty_chain hCsplit he
      have hC1 : Chain s1 init (last :: f) := by
        rw [List.append_nil] at hC1'
        exact hC1'
      have hnd : (init ++ [last]).Nodup := hC.nodup.of_append_left
      have hlast_not_init : last ∉ init := by
        rw [List.nodup_append] at hnd
        exact fun hmem => hnd.2.2 hmem (List.mem_cons_self last [])
      have hfuel1 : init.length ≤ fuel := by
        have := hfuel
        simp at this
        omega
      obtain ⟨j1, s', f', heval2, hj1, hCout, hmc2, hlen2, hdata2, hcur2, hmax2⟩ :=
        ih hC1 hfuel1
      have htake : ∀ j2, j2 ≤ init.length →
          (init ++ [last]).take j2 = init.take j2 := by
        intro j2 hj2
        rw [List.take_append_of_le_length hj2]
      have hdata_s : ∀ i ∈ init, occData s1.entries i = occData s.entries i := by
        intro i hi
        exact hdata1 i (fun hc => hlast_not_init (hc ▸ hi))
      refine ⟨j1, s', f', ?_, by simp; omega, ?_, by rw [hmc2, hmc1], by rw [hlen2, hlen1],
        ?_, ?_, ?_⟩
      · unfold evictLoop
        rw [if_neg hle, htail]
        dsimp only
        rw [heval1]
        dsimp only
        exact heval2
      · rw [htake j1 hj1]
        exact hCout
      · intro i hi
        rw [htake j1 hj1] at hi
        have hii : i ∈ init := List.mem_of_mem_take hi
        rw [hdata2 i hi, hdata_s i hii]
      · rw [← hmc1]
        exact hcur2
      · intro j2 h1 h2
        simp at h2
        rcases Nat.lt_or_ge j2 (init.length + 1) with hcase | hcase
        · have hj2i : j2 ≤ init.length := by omega
          have := hmax2 j2 h1 hj2i
          rw [htake j2 hj2i]
          have hcong : costsOf s.entries (init.take j2) =
              costsOf s1.entries (init.take j2) := by
            apply (costsOf_congr_data ?_).symm
            intro i hi
            exact hdata_s i (List.mem_of_mem_take hi)
          rw [hcong, ← hmc1]
          exact this
        · have hj2 : j2 = init.length + 1 := by omega
          subst hj2
          have : (init ++ [last]).take (init.length + 1) = init ++ [last] := by
            apply List.take_of_length_le
            simp
          rw [this]
          have := hC.cost_eq
          omega

end EvictChain

section LinkChain

variable {K V : Type} [DecidableEq K]

theorem occAt_append_left {entries l2 : List (CacheEntry K V)} {j : Nat}
    (h : j < entries.length) : occAt (entries ++ l2) j = occAt entries j := by
  unfold occAt
  rw [List.getElem?_append_left h]

/-- After installing a fresh entry at a detached empty slot `ind` of a state
whose chain was empty, the state with head and tail at `ind` is a full
chain `[ind]`. -/
theorem chain_after_link_nil {s2 : CostBasedLru K V} {f2 : List Nat} {ind : Nat}
    (k : K) (v : V) (c : Nat)
    (hX : ShapeInvX s2 [] f2 ind)
    (hidxs : ∀ (k' : K) (i' : Nat), lookupA s2.index k' = some i' → False)
    (hcost2 : s2.current_cost = 0) :
    Chain ({ s2 with
      entries := s2.entries.set ind (.Occupied ⟨k, v, none, none, c⟩),
      entries_head := some ind,
      entries_tail := some ind,
      index := insertA s2.index k ind,
      current_cost := s2.current_cost + c }) [ind] f2 := by
  have hlt : ind < s2.entries.length := (hX.cover ind).mpr (Or.inr (Or.inr rfl))
  have hocc5 : occAt (s2.entries.set ind (.Occupied ⟨k, v, none, none, c⟩)) ind =
      some ⟨k, v, none, none, c⟩ := occAt_set_occ hlt _
  have hnotf : ind ∉ f2 := fun hm => hX.notin (List.mem_append_right _ hm)
  refine ⟨⟨?_, ?_, rfl, rfl, ?_, ?_, ?_⟩, ?_, ?_, ?_⟩
  · simp only [linkedSeg, nextOf, and_true]
    exact nodeOk_iff.mpr ⟨_, hocc5, rfl, rfl⟩
  · dsimp only
    rw [freeFrom_congr (fun j hj => List.getElem?_set_ne (fun hc => by
      subst hc
      exact hnotf hj))]
    exact hX.freed
  · exact hX.ehead_eq
  · have h1 : f2.Nodup := by simpa using hX.nodup
    simp [hnotf, h1]
  · intro j
    dsimp only
    rw [List.length_set, hX.cover j]
    simp only [List.mem_singleton, List.not_mem_nil, false_or]
    tauto
  · intro j hj e' he'
    rw [List.mem_singleton] at hj
    subst hj
    dsimp only at he' ⊢
    rw [hocc5] at he'
    injection he' with he'
    subst he'
    rw [lookupA_insertA_self]
  · intro k' i' hlk
    dsimp only at hlk ⊢
    by_cases hk : k' = k
    · subst hk
      rw [lookupA_insertA_self] at hlk
      injection hlk with hlk
      subst hlk
      exact ⟨by simp, ⟨k', v, none, none, c⟩, by rw [hocc5], rfl⟩
    · rw [lookupA_insertA_ne _ _ hk] at hlk
      exact absurd hlk (by intro hc; exact hidxs k' i' hc)
  · dsimp only
    unfold costsOf costAt
    simp [hocc5, hcost2]

/-- After installing a fresh entry at a detached empty slot `ind` and pointing
the old head's `prev` at it, the state is a full chain `ind :: h0 :: t1`. -/
theorem chain_after_link_cons {s2 : CostBasedLru K V} {h0 : Nat} {t1 f2 : List Nat}
    {ind : Nat} (k : K) (v : V) (c : Nat) {e0 : OccEntry K V}
    (he0 : occAt s2.entries h0 = some e0)
    (hX : ShapeInvX s2 (h0 :: t1) f2 ind)
    (hidxm : ∀ j ∈ h0 :: t1, ∀ e', occAt s2.entries j = some e' →
        lookupA s2.index e'.key = some j)
    (hidxs : ∀ (k' : K) (i' : Nat), lookupA s2.index k' = some i' →
        i' ∈ h0 :: t1 ∧ ∃ e', occAt s2.entries i' = some e' ∧ e'.key = k')
    (hcost2 : s2.current_cost = costsOf s2.entries (h0 :: t1))
    (hlookk : lookupA s2.index k = none) :
    Chain ({ s2 with
      entries := (s2.entries.set ind (.Occupied ⟨k, v, none, some h0, c⟩)).set h0
        (.Occupied { e0 with prev := some ind }),
      entries_head := some ind,
      index := insertA s2.index k ind,
      current_cost := s2.current_cost + c }) (ind :: h0 :: t1) f2 := by
  have hlt : ind < s2.entries.length := (hX.cover ind).mpr (Or.inr (Or.inr rfl))
  have hnotl : ind ∉ h0 :: t1 := fun hm => hX.notin (List.mem_append_left _ hm)
  have hnotf : ind ∉ f2 := fun hm => hX.notin (List.mem_append_right _ hm)
  have hh0_ne : h0 ≠ ind := fun hc => hnotl (hc ▸ List.mem_cons_self h0 t1)
  have hh0_notf : h0 ∉ f2 := by
    have := hX.nodup
    rw [List.nodup_append] at this
    exact fun hm => this.2.2 (List.mem_cons_self h0 t1) hm
  have hndl1 : (h0 :: t1).Nodup := hX.nodup.of_append_left
  have hh0_nott1 : h0 ∉ t1 := (List.nodup_cons.mp hndl1).1
  set entries5 := (s2.entries.set ind (.Occupied ⟨k, v, none, some h0, c⟩)).set h0
    (.Occupied { e0 with prev := some ind }) with hentries5
  have hlt0 : h0 < s2.entries.length := occAt_lt_length he0
  have hocc5ind : occAt entries5 ind = some ⟨k, v, none, some h0, c⟩ := by
    rw [hentries5, occAt_set_ne (Ne.symm hh0_ne), occAt_set_occ hlt]
  have hocc5h0 : occAt entries5 h0 = some { e0 with prev := some ind } := by
    rw [hentries5]
    exact occAt_set_occ (by rw [List.length_set]; exact hlt0) _
  have hdata5 : ∀ j, j ≠ ind → occData entries5 j = occData s2.entries j := by
    intro j hj
    by_cases hjh : j = h0
    · subst hjh
      unfold occData
      rw [hocc5h0, he0]
      rfl
    · unfold occData
      rw [hentries5, occAt_set_ne hjh, occAt_set_ne hj]
  have hlink0 := hX.linked
  simp only [linkedSeg] at hlink0
  obtain ⟨hn0, htl0⟩ := hlink0
  obtain ⟨e0', he0', hprev0, hnext0⟩ := nodeOk_iff.mp hn0
  rw [he0] at he0'
  injection he0' with he0'
  subst he0'
  refine ⟨⟨?_, ?_, rfl, ?_, hX.ehead_eq, ?_, ?_⟩, ?_, ?_, ?_⟩
  · simp only [linkedSeg]
    refine ⟨?_, ?_, ?_⟩
    · exact nodeOk_iff.mpr ⟨_, hocc5ind, rfl, rfl⟩
    · exact nodeOk_iff.mpr ⟨_, hocc5h0, rfl, hnext0⟩
    · have hsame : ∀ j ∈ t1, occAt entries5 j = occAt s2.entries j := by
        intro j hj
        have hj_ne_h0 : j ≠ h0 := fun hc => hh0_nott1 (hc ▸ hj)
        have hj_ne_ind : j ≠ ind := fun hc =>
          hnotl (hc ▸ List.mem_cons_of_mem h0 hj)
        rw [hentries5, occAt_set_ne hj_ne_h0, occAt_set_ne hj_ne_ind]
      rw [linkedSeg_congr hsame]
      exact htl0
  · dsimp only
    have hsame : ∀ j ∈ f2, entries5[j]? = s2.entries[j]? := by
      intro j hj
      have h1 : j ≠ h0 := fun hc => hh0_notf (hc ▸ hj)
      have h2 : j ≠ ind := fun hc => hnotf (hc ▸ hj)
      rw [hentries5, List.getElem?_set_ne (Ne.symm h1), List.getElem?_set_ne (Ne.symm h2)]
    rw [freeFrom_congr hsame]
    exact hX.freed
  · dsimp only
    rw [hX.tail_eq, List.getLast?_cons_cons]
  · rw [List.cons_append]
    exact List.nodup_cons.mpr ⟨hX.notin, hX.nodup⟩
  · intro j
    dsimp only
    rw [List.length_set, List.length_set, hX.cover j]
    simp only [List.mem_cons]
    tauto
  · intro j hj e' he'
    dsimp only at he' ⊢
    rcases List.mem_cons.mp hj with hj | hj
    · subst hj
      rw [hocc5ind] at he'
      injection he' with he'
      subst he'
      exact lookupA_insertA_self _ _ _
    · have hne : j ≠ ind := fun hc => hnotl (hc ▸ hj)
      obtain ⟨e2, he2, hkey2, -, -⟩ := occAt_of_occData (hdata5 j hne).symm he'
      have hlk2 : lookupA s2.index e2.key = some j := hidxm j hj e2 he2
      have hkne : e'.key ≠ k := fun hc => by
        rw [hkey2, hc, hlookk] at hlk2
        exact Option.noConfusion hlk2
      rw [lookupA_insertA_ne _ _ hkne, ← hkey2]
      exact hlk2
  · intro k' i' hlk
    dsimp only at hlk ⊢
    by_cases hk : k' = k
    · subst hk
      rw [lookupA_insertA_self] at hlk
      injection hlk with hlk
      subst hlk
      exact ⟨List.mem_cons_self _ _, _, hocc5ind, rfl⟩
    · rw [lookupA_insertA_ne _ _ hk] at hlk
      obtain ⟨hmem2, e2, he2, hkey2⟩ := hidxs k' i' hlk
      have hne : i' ≠ ind := fun hc => hnotl (hc ▸ hmem2)
      obtain ⟨e', he', hkey', -, -⟩ := occAt_of_occData (hdata5 i' hne) he2
      exact ⟨List.mem_cons_of_mem ind hmem2, e', he', hkey'.trans hkey2⟩
  · dsimp only
    have h1 : costsOf entries5 (h0 :: t1) = costsOf s2.entries (h0 :: t1) := by
      apply costsOf_congr_data
      intro j hj
      exact hdata5 j (fun hc => hnotl (hc ▸ hj))
    have h2 : costsOf entries5 (ind :: h0 :: t1) =
        costAt entries5 ind + costsOf entries5 (h0 :: t1) := by
      simp [costsOf]
    have h3 : costAt entries5 ind = c := by
      unfold costAt
      rw [hocc5ind]
    rw [h2, h3, h1, ← hcost2]
    omega

end LinkChain

section InsertChain

variable {K V : Type} [DecidableEq K]

/-- `CostBasedLru::insert` from a well-formed state, up to the eviction loop:
the state passed to `maybe_evict` is well-formed with the fresh entry at the
head of the chain, and the final result maps the eviction outcome, returning
the prior value of the key. -/
theorem insert_chain {s : CostBasedLru K V} {l f : List Nat} (hC : Chain s l f)
    (k : K) (v : V) (c : Nat) :
    ∃ (ind : Nat) (l1 f2 : List Nat) (s5 : CostBasedLru K V),
      Chain s5 (ind :: l1) f2 ∧
      s5.max_cost = s.max_cost ∧
      (∃ e, occAt s5.entries ind = some e ∧ e.key = k ∧ e.item = v ∧ e.cost = c) ∧
      CostBasedLru.insert s k v c =
        (match maybe_evict s5 with
         | none => none
         | some s6 => some (valueAt s k, s6)) := by
  -- Phase 1: the initial removal of the key.
  have hpack : ∃ (s1 : CostBasedLru K V) (l1 f1 : List Nat),
      CostBasedLru.remove s k = some (valueAt s k, s1) ∧ Chain s1 l1 f1 ∧
      lookupA s1.index k = none ∧ s1.max_cost = s.max_cost := by
    cases hl : lookupA s.index k with
    | none =>
      refine ⟨s, l, f, ?_, hC, hl, rfl⟩
      rw [(remove_chain hC k).1 hl]
      simp [valueAt, hl]
    | some i =>
      obtain ⟨e, a, b, s', he, hek, hsplit, heval, hC', hlen, hidx, hcc, hmc, hdata⟩ :=
        (remove_chain hC k).2 i hl
      refine ⟨s', a ++ b, i :: f, ?_, hC', ?_, hmc⟩
      · rw [heval]
        simp [valueAt, hl, he]
      · rw [hidx]
        exact lookupA_removeA_self _ _
  obtain ⟨s1, l1, f1, hrem, hC1, hlook1, hmax1⟩ := hpack
  -- Phase 2: obtaining an empty slot.
  have hfe : ∃ (ind : Nat) (f2 : List Nat) (s2 : CostBasedLru K V),
      find_empty s1 = some (ind, s2) ∧ ShapeInvX s2 l1 f2 ind ∧
      (∀ j ∈ l1, ∀ e', occAt s2.entries j = some e' →
          lookupA s2.index e'.key = some j) ∧
      (∀ (k' : K) (i' : Nat), lookupA s2.index k' = some i' →
        i' ∈ l1 ∧ ∃ e', occAt s2.entries i' = some e' ∧ e'.key = k') ∧
      s2.current_cost = costsOf s2.entries l1 ∧
      lookupA s2.index k = none ∧ s2.max_cost = s1.max_cost := by
    cases hf1 : f1 with
    | cons ind f2 =>
      subst hf1
      have hfr := hC1.freed
      have hempty : s1.entries[ind]? = some (.Empty f2.head?) := hfr.1
      have hehead : s1.empty_head = some ind := hC1.ehead_eq
      have hnd := hC1.nodup
      rw [List.nodup_append] at hnd
      have hindl1 : ind ∉ l1 := fun hm => hnd.2.2 hm (List.mem_cons_self ind f2)
      have hindf2 : ind ∉ f2 := (List.nodup_cons.mp hnd.2.1).1
      refine ⟨ind, f2, { s1 with empty_head := f2.head? }, ?_, ?_, hC1.idx_mem,
        hC1.idx_sound, hC1.cost_eq, hlook1, rfl⟩
      · unfold find_empty
        rw [hehead]
        dsimp only
        rw [hempty]
      · refine ⟨hC1.linked, hfr.2, hC1.head_eq, hC1.tail_eq, rfl, ?_, ?_, ?_⟩
        · have hsub : (l1 ++ f2).Sublist (l1 ++ ind :: f2) :=
            List.Sublist.append_left (List.sublist_cons_self ind f2) l1
          exact hC1.nodup.sublist hsub
        · simp only [List.mem_append]
          rintro (h | h)
          · exact hindl1 h
          · exact hindf2 h
        · intro j
          rw [hC1.cover j]
          simp only [List.mem_append, List.mem_cons]
          tauto
    | nil =>
      subst hf1
      have hehead : s1.empty_head = none := hC1.ehead_eq
      have hmem_lt : ∀ j ∈ l1, j < s1.entries.length := by
        intro j hj
        exact (hC1.cover j).mpr (Or.inl hj)
      have hsame : ∀ j ∈ l1, occAt (s1.entries ++ [(.Empty none : CacheEntry K V)]) j =
          occAt s1.entries j := by
        intro j hj
        exact occAt_append_left (hmem_lt j hj)
      refine ⟨s1.entries.length, [], { s1 with entries := s1.entries ++ [.Empty none] },
        ?_, ?_, ?_, ?_, ?_, hlook1, rfl⟩
      · unfold find_empty
        rw [hehead]
      · refine ⟨?_, trivial, hC1.head_eq, hC1.tail_eq, hC1.ehead_eq, ?_, ?_, ?_⟩
        · dsimp only
          rw [linkedSeg_congr hsame]
          exact hC1.linked
        · simpa using hC1.nodup
        · simp only [List.append_nil]
          intro hm
          exact absurd (hmem_lt _ hm) (lt_irrefl _)
        · intro j
          dsimp only
          rw [List.length_append]
          constructor
          · intro hj
            simp only [List.length_singleton] at hj
            rcases Nat.lt_or_ge j s1.entries.length with hlt | hge
            · have := (hC1.cover j).mp hlt
              simp only [List.not_mem_nil, or_false] at this
              exact Or.inl this
            · right
              right
              omega
          · intro hj
            simp only [List.length_singleton]
            rcases hj with hj | hj | hj
            · have := hmem_lt j hj
              omega
            · exact absurd hj (List.not_mem_nil j)
            · omega
      · intro j hj e' he'
        rw [hsame j hj] at he'
        exact hC1.idx_mem j hj e' he'
      · intro k' i' hlk
        obtain ⟨hm, e', he', hk'⟩ := hC1.idx_sound k' i' hlk
        exact ⟨hm, e', by rw [hsame i' hm]; exact he', hk'⟩
      · dsimp only
        rw [costsOf_congr (fun i hi => hsame i hi)]
        exact hC1.cost_eq
  obtain ⟨ind, f2, s2, hfe_eval, hX, hidxm2, hidxs2, hcost2, hlookk2, hmax2⟩ := hfe
  have hindlt : ind < s2.entries.length := (hX.cover ind).mpr (Or.inr (Or.inr rfl))
  -- Phase 3: linking the fresh entry in, by cases on the old chain.
  cases hl1 : l1 with
  | nil =>
    subst hl1
    have hh2 : s2.entries_head = none := hX.head_eq
    have ht2 : s2.entries_tail = none := hX.tail_eq
    have hcost0 : s2.current_cost = 0 := by
      simpa [costsOf] using hcost2
    refine ⟨ind, [], f2, { s2 with
        entries := s2.entries.set ind (.Occupied ⟨k, v, none, none, c⟩),
        entries_head := some ind,
        entries_tail := some ind,
        index := insertA s2.index k ind,
        current_cost := s2.current_cost + c }, ?_, ?_, ?_, ?_⟩
    · exact chain_after_link_nil k v c hX
        (fun k' i' hlk => by
          obtain ⟨hm, -⟩ := hidxs2 k' i' hlk
          exact absurd hm (List.not_mem_nil i')) hcost0
    · dsimp only
      rw [hmax2, hmax1]
    · exact ⟨⟨k, v, none, none, c⟩, occAt_set_occ hindlt _, rfl, rfl, rfl⟩
    · unfold CostBasedLru.insert
      rw [hrem]
      dsimp only
      rw [hfe_eval]
      dsimp only
      rw [hh2]
      dsimp only
      rw [ht2, if_pos rfl]
  | cons h0 t1 =>
    subst hl1
    have hh2 : s2.entries_head = some h0 := hX.head_eq
    have ht2 : s2.entries_tail = (h0 :: t1).getLast? := hX.tail_eq
    have ht2ne : ¬ (s2.entries_tail = none) := by
      rw [ht2]
      simp
    have hnotl : ind ∉ h0 :: t1 := fun hm => hX.notin (List.mem_append_left _ hm)
    have hh0ne : h0 ≠ ind := fun hc => hnotl (hc ▸ List.mem_cons_self h0 t1)
    have hlk0 := hX.linked
    simp only [linkedSeg] at hlk0
    obtain ⟨e0, he0, -, -⟩ := nodeOk_iff.mp hlk0.1
    have hmod : modifyOcc (s2.entries.set ind (.Occupied ⟨k, v, none, some h0, c⟩)) h0
        (fun o => { o with prev := some ind }) =
        some ((s2.entries.set ind (.Occupied ⟨k, v, none, some h0, c⟩)).set h0
          (.Occupied { e0 with prev := some ind })) := by
      unfold modifyOcc
      rw [occAt_set_ne hh0ne, he0]
    refine ⟨ind, h0 :: t1, f2, { s2 with
        entries := (s2.entries.set ind (.Occupied ⟨k, v, none, some h0, c⟩)).set h0
          (.Occupied { e0 with prev := some ind }),
        entries_head := some ind,
        index := insertA s2.index k ind,
        current_cost := s2.current_cost + c }, ?_, ?_, ?_, ?_⟩
    · exact chain_after_link_cons k v c he0 hX hidxm2 hidxs2 hcost2 hlookk2
    · dsimp only
      rw [hmax2, hmax1]
    · refine ⟨⟨k, v, none, some h0, c⟩, ?_, rfl, rfl, rfl⟩
      dsimp only
      rw [occAt_set_ne (Ne.symm hh0ne), occAt_set_occ hindlt]
    · unfold CostBasedLru.insert
      rw [hrem]
      dsimp only
      rw [hfe_eval]
      dsimp only
      rw [hh2]
      dsimp only
      rw [hmod]
      dsimp only
      rw [if_neg ht2ne]

end InsertChain

section WfOps

variable {K V : Type} [DecidableEq K]

/-- In an empty chain every index lookup misses. -/
theorem chain_nil_lookup {s : CostBasedLru K V} {f : List Nat}
    (hC : Chain s [] f) (k : K) : lookupA s.index k = none := by
  cases h : lookupA s.index k with
  | none => rfl
  | some i => exact absurd (hC.idx_sound k i h).1 (List.not_mem_nil i)

/-- In an empty chain every slot is unoccupied. -/
theorem chain_nil_occAt {s : CostBasedLru K V} {f : List Nat}
    (hC : Chain s [] f) (j : Nat) : occAt s.entries j = none := by
  rcases Nat.lt_or_ge j s.entries.length with hlt | hge
  · have hj := (hC.cover j).mp hlt
    have hjf : j ∈ f := by
      rcases hj with hj | hj
      · exact absurd hj (List.not_mem_nil j)
      · exact hj
    obtain ⟨ne, hne⟩ := freeFrom_empty hC.freed j hjf
    unfold occAt
    rw [hne]
  · unfold occAt
    rw [List.getElem?_eq_none hge]

/-- Traversal from a `none` head visits nothing. -/
theorem traverseIdx_none (entries : List (CacheEntry K V)) (fuel : Nat) :
    traverseIdx entries fuel none = [] := by
  cases fuel <;> rfl

/-- An empty chain renders as the empty iteration. -/
theorem chain_nil_toIdxList {s : CostBasedLru K V} {f : List Nat}
    (hC : Chain s [] f) : toIdxList s = [] := by
  have hh : s.entries_head = none := hC.head_eq
  unfold toIdxList
  rw [hh, traverseIdx_none]

/-- The cost at a member index is bounded by the total along the list. -/
theorem costAt_le_costsOf {entries : List (CacheEntry K V)} {l : List Nat}
    {i : Nat} (hi : i ∈ l) : costAt entries i ≤ costsOf entries l := by
  unfold costsOf
  exact List.single_le_sum (fun x _ => Nat.zero_le x) _
    (List.mem_map_of_mem (costAt entries) hi)

/-- `CostBasedLru::insert` from a well-formed state: the call completes,
returns the prior value of the key, and the result is well-formed with cost
within budget.  A cost within the budget keeps the fresh entry retrievable;
a cost above the budget empties the cache entirely. -/
theorem insert_wf {s : CostBasedLru K V} (hW : Wf s) (k : K) (v : V) (c : Nat) :
    ∃ s', CostBasedLru.insert s k v c = some (valueAt s k, s') ∧ Wf s' ∧
      s'.max_cost = s.max_cost ∧ s'.current_cost ≤ s.max_cost ∧
      (c ≤ s.max_cost → valueAt s' k = some v) ∧
      (s.max_cost < c → s'.current_cost = 0 ∧ (∀ k', lookupA s'.index k' = none) ∧
        (∀ j, occAt s'.entries j = none) ∧ toIdxList s' = []) := by
  obtain ⟨l, f, hC⟩ := hW
  obtain ⟨ind, l1, f2, s5, hC5, hmax5, ⟨e, he, hek, hev, hec⟩, heval⟩ := insert_chain hC k v c
  have hlen : (ind :: l1).length ≤ s5.entries.length := shape_length_le hC5.toShapeInv
  obtain ⟨j, s', f', hev5, hj, hC', hmax', hlen', hdata', hcc', hmaximal⟩ :=
    evictLoop_chain s5.entries.length hC5 hlen
  have hme : maybe_evict s5 = some s' := hev5
  refine ⟨s', ?_, ⟨_, _, hC'⟩, ?_, ?_, ?_, ?_⟩
  · rw [heval, hme]
  · rw [hmax', hmax5]
  · rw [← hmax5]
    exact hcc'
  · intro hcle
    have hj1 : 1 ≤ j := by
      by_contra hj0
      push_neg at hj0
      have h1 := hmaximal 1 (by omega) (by simp)
      have h2 : costsOf s5.entries ((ind :: l1).take 1) = c := by
        simp [costsOf, costAt, he, hec]
      rw [h2, hmax5] at h1
      omega
    have hmem : ind ∈ (ind :: l1).take j := by
      cases j with
      | zero => omega
      | succ j' => simp [List.take_succ_cons]
    obtain ⟨e', he', hk', hv', hc'⟩ := occAt_of_occData (hdata' ind hmem) he
    have hlk : lookupA s'.index k = some ind := by
      have h3 := hC'.idx_mem ind hmem e' he'
      rw [hk', hek] at h3
      exact h3
    unfold valueAt
    rw [hlk]
    simp [he', hv', hev]
  · intro hgt
    have hj0 : j = 0 := by
      by_contra hne
      have hmem : ind ∈ (ind :: l1).take j := by
        cases j with
        | zero => exact absurd rfl hne
        | succ j' => simp [List.take_succ_cons]
      obtain ⟨e', he', hk', hv', hc'⟩ := occAt_of_occData (hdata' ind hmem) he
      have h1 : costAt s'.entries ind = c := by
        unfold costAt
        rw [he']
        dsimp only
        rw [hc', hec]
      have h2 : c ≤ costsOf s'.entries ((ind :: l1).take j) := by
        rw [← h1]
        exact costAt_le_costsOf hmem
      have h3 := hC'.cost_eq
      rw [hmax5] at hcc'
      omega
    subst hj0
    simp only [List.take_zero] at hC'
    refine ⟨by simpa [costsOf] using hC'.cost_eq, chain_nil_lookup hC',
      chain_nil_occAt hC', chain_nil_toIdxList hC'⟩

end WfOps

section ClaimC10

variable {K V : Type} [DecidableEq K]

/-- C10: from a well-formed cache, `insert(k, v, c)` with `c > max_cost`
returns the prior value of `k` and the eviction loop then empties the cache
completely: the cost drops to 0, every index lookup misses, every slot is
unoccupied and `iter` yields nothing.  (On the corrupted states reachable
through the `make_most_recent` stale-`prev` defect this fails, see the
accompanying counterexample.) -/
theorem c10_insert_over_max_amended {s : CostBasedLru K V} (hW : Wf s)
    (k : K) (v : V) (c : Nat) (hc : s.max_cost < c) :
    ∃ s', CostBasedLru.insert s k v c = some (valueAt s k, s') ∧
      s'.current_cost = 0 ∧ s'.max_cost = s.max_cost ∧
      (∀ k', lookupA s'.index k' = none) ∧
      (∀ j, occAt s'.entries j = none) ∧ toIdxList s' = [] := by
  obtain ⟨s', heval, hWf, hmax, hle, hfits, hover⟩ := insert_wf hW k v c
  obtain ⟨h0, hlk, hocc, hidx⟩ := hover hc
  exact ⟨s', heval, h0, hmax, hlk, hocc, hidx⟩

/-- C10 witness: inserting cost 11 into a fresh cache of budget 10. -/
theorem c10_insert_over_max_amended_witness :
    ∃ s', CostBasedLru.insert (CostBasedLru.new 10 : CostBasedLru Nat Nat) 5 7 11 =
        some (valueAt (CostBasedLru.new 10 : CostBasedLru Nat Nat) 5, s') ∧
      s'.current_cost = 0 ∧
      s'.max_cost = (CostBasedLru.new 10 : CostBasedLru Nat Nat).max_cost ∧
      (∀ k', lookupA s'.index k' = none) ∧
      (∀ j, occAt s'.entries j = none) ∧ toIdxList s' = [] :=
  c10_insert_over_max_amended (wf_new 10) 5 7 11 (by decide)

end ClaimC10

section GetOps

variable {K V : Type} [DecidableEq K]

/-- `CostBasedLru::get` on a missing key returns `None` and leaves the cache
untouched. -/
theorem get_miss {s : CostBasedLru K V} {k : K}
    (h : lookupA s.index k = none) :
    CostBasedLru.get s k = some (none, s) := by
  unfold CostBasedLru.get
  rw [h]

/-- `CostBasedLru::get` on a present key in a well-formed cache does not
panic: `make_most_recent` succeeds and the stored item is returned. -/
theorem get_hit {s : CostBasedLru K V} {l f : List Nat} (hC : Chain s l f)
    {k : K} {i : Nat} (h : lookupA s.index k = some i) :
    ∃ v s', CostBasedLru.get s k = some (some v, s') := by
  obtain ⟨hmem, e, he, hek⟩ := hC.idx_sound k i h
  obtain ⟨a, b, hlsplit⟩ := List.append_of_mem hmem
  subst hlsplit
  obtain ⟨s1, hunlink, hX, hlen1, hidx1, hcc1, hmc1, hdata1, hocc1⟩ :=
    unlink_spec hC.toShapeInv
  have hilt : i < s1.entries.length := (hX.cover i).mpr (Or.inr (Or.inr rfl))
  have he1 : occAt s1.entries i = some e := by
    rw [hocc1]
    exact he
  have hmod1 : modifyOcc s1.entries i (fun o => { o with next := s1.entries_head }) =
      some (s1.entries.set i (.Occupied { e with next := s1.entries_head })) := by
    unfold modifyOcc
    rw [he1]
  cases hab : a ++ b with
  | nil =>
    have hh : s1.entries_head = none := by
      rw [hX.head_eq, hab]
      rfl
    have ht : s1.entries_tail = none := by
      rw [hX.tail_eq, hab]
      rfl
    have hmmr : make_most_recent s i = some { s1 with
        entries := s1.entries.set i (.Occupied { e with next := none }),
        entries_head := some i,
        entries_tail := some i } := by
      unfold make_most_recent
      rw [hunlink]
      dsimp only
      rw [hmod1]
      dsimp only
      rw [hh]
      dsimp only
      rw [ht, if_pos rfl]
    refine ⟨e.item, { s1 with
        entries := s1.entries.set i (.Occupied { e with next := none }),
        entries_head := some i,
        entries_tail := some i }, ?_⟩
    unfold CostBasedLru.get
    rw [h]
    dsimp only
    rw [hmmr]
    dsimp only
    rw [occAt_set_occ hilt]
  | cons h0 t =>
    have hh : s1.entries_head = some h0 := by
      rw [hX.head_eq, hab]
      rfl
    have ht : ¬ (s1.entries_tail = none) := by
      rw [hX.tail_eq, hab]
      simp
    have hmemh0 : h0 ∈ a ++ b := by
      rw [hab]
      exact List.mem_cons_self h0 t
    have hh0ne : h0 ≠ i := by
      intro hc
      subst hc
      exact hX.notin (List.mem_append_left f hmemh0)
    have hlk := hX.linked
    rw [hab] at hlk
    obtain ⟨e0, he0, -, -⟩ := nodeOk_iff.mp hlk.1
    have he0' : occAt (s1.entries.set i (.Occupied { e with next := some h0 })) h0 =
        some e0 := by
      rw [occAt_set_ne hh0ne]
      exact he0
    have hmod2 : modifyOcc (s1.entries.set i (.Occupied { e with next := some h0 })) h0
        (fun o => { o with prev := some i }) =
        some ((s1.entries.set i (.Occupied { e with next := some h0 })).set h0
          (.Occupied { e0 with prev := some i })) := by
      unfold modifyOcc
      rw [he0']
    have hmmr : make_most_recent s i = some { s1 with
        entries := (s1.entries.set i (.Occupied { e with next := some h0 })).set h0
          (.Occupied { e0 with prev := some i }),
        entries_head := some i } := by
      unfold make_most_recent
      rw [hunlink]
      dsimp only
      rw [hmod1]
      dsimp only
      rw [hh]
      dsimp only
      rw [hmod2]
      dsimp only
      rw [if_neg ht]
    refine ⟨e.item, { s1 with
        entries := (s1.entries.set i (.Occupied { e with next := some h0 })).set h0
          (.Occupied { e0 with prev := some i }),
        entries_head := some i }, ?_⟩
    unfold CostBasedLru.get
    rw [h]
    dsimp only
    rw [hmmr]
    dsimp only
    rw [occAt_set_ne (Ne.symm hh0ne), occAt_set_occ hilt]

/-- `CostBasedLru::get` never panics on a well-formed cache. -/
theorem get_total {s : CostBasedLru K V} (hW : Wf s) (k : K) :
    ∃ r s', CostBasedLru.get s k = some (r, s') := by
  obtain ⟨l, f, hC⟩ := hW
  cases h : lookupA s.index k with
  | none => exact ⟨none, s, get_miss h⟩
  | some i =>
    obtain ⟨v, s', hv⟩ := get_hit hC h
    exact ⟨some v, s', hv⟩

/-- `CostBasedLru::remove` from a well-formed cache succeeds, stays
well-formed and drops the key from the index. -/
theorem remove_wf {s : CostBasedLru K V} (hW : Wf s) (k : K) :
    ∃ r s', CostBasedLru.remove s k = some (r, s') ∧ Wf s' ∧
      lookupA s'.index k = none ∧ s'.max_cost = s.max_cost := by
  obtain ⟨l, f, hC⟩ := hW
  cases h : lookupA s.index k with
  | none => exact ⟨none, s, (remove_chain hC k).1 h, ⟨l, f, hC⟩, h, rfl⟩
  | some i =>
    obtain ⟨e, a, b, s', he, hek, hsplit, heval, hC', hlen, hidx, hcc, hmc, hdata⟩ :=
      (remove_chain hC k).2 i h
    refine ⟨some e.item, s', heval, ⟨_, _, hC'⟩, ?_, hmc⟩
    rw [hidx]
    exact lookupA_removeA_self _ _

end GetOps

section GetPostOps

variable {K V : Type} [DecidableEq K]

/-- `CostBasedLru::get` on a present key in a well-formed cache, with the
promoted state described: the returned item is the stored value, the key is
still indexed at the same slot, that slot is now the list head, and its
`next` link (if any) points at a distinct occupied slot.  (The promoted
slot's `prev` may be stale — the source never resets it — so the result is
not claimed well-formed.) -/
theorem get_hit_post {s : CostBasedLru K V} {l f : List Nat} (hC : Chain s l f)
    {k : K} {i : Nat} (h : lookupA s.index k = some i) :
    ∃ v s', CostBasedLru.get s k = some (some v, s') ∧ valueAt s k = some v ∧
      lookupA s'.index k = some i ∧ s'.entries_head = some i ∧
      ∃ e', occAt s'.entries i = some e' ∧ e'.item = v ∧
        (∀ n, e'.next = some n → n ≠ i ∧ ∃ en, occAt s'.entries n = some en) := by
  obtain ⟨hmem, e, he, hek⟩ := hC.idx_sound k i h
  obtain ⟨a, b, hlsplit⟩ := List.append_of_mem hmem
  subst hlsplit
  obtain ⟨s1, hunlink, hX, hlen1, hidx1, hcc1, hmc1, hdata1, hocc1⟩ :=
    unlink_spec hC.toShapeInv
  have hilt : i < s1.entries.length := (hX.cover i).mpr (Or.inr (Or.inr rfl))
  have he1 : occAt s1.entries i = some e := by
    rw [hocc1]
    exact he
  have hmod1 : modifyOcc s1.entries i (fun o => { o with next := s1.entries_head }) =
      some (s1.entries.set i (.Occupied { e with next := s1.entries_head })) := by
    unfold modifyOcc
    rw [he1]
  cases hab : a ++ b with
  | nil =>
    have hh : s1.entries_head = none := by
      rw [hX.head_eq, hab]
      rfl
    have ht : s1.entries_tail = none := by
      rw [hX.tail_eq, hab]
      rfl
    have hmmr : make_most_recent s i = some { s1 with
        entries := s1.entries.set i (.Occupied { e with next := none }),
        entries_head := some i,
        entries_tail := some i } := by
      unfold make_most_recent
      rw [hunlink]
      dsimp only
      rw [hmod1]
      dsimp only
      rw [hh]
      dsimp only
      rw [ht, if_pos rfl]
    refine ⟨e.item, { s1 with
        entries := s1.entries.set i (.Occupied { e with next := none }),
        entries_head := some i,
        entries_tail := some i }, ?_, ?_, ?_, rfl,
      { e with next := none }, occAt_set_occ hilt _, rfl, ?_⟩
    · unfold CostBasedLru.get
      rw [h]
      dsimp only
      rw [hmmr]
      dsimp only
      rw [occAt_set_occ hilt]
    · simp [valueAt, h, he]
    · dsimp only
      rw [hidx1]
      exact h
    · intro n hn
      simp at hn
  | cons h0 t =>
    have hh : s1.entries_head = some h0 := by
      rw [hX.head_eq, hab]
      rfl
    have ht : ¬ (s1.entries_tail = none) := by
      rw [hX.tail_eq, hab]
      simp
    have hmemh0 : h0 ∈ a ++ b := by
      rw [hab]
      exact List.mem_cons_self h0 t
    have hh0ne : h0 ≠ i := by
      intro hc
      subst hc
      exact hX.notin (List.mem_append_left f hmemh0)
    have h0lt : h0 < s1.entries.length := (hX.cover h0).mpr (Or.inl hmemh0)
    have hlk := hX.linked
    rw [hab] at hlk
    obtain ⟨e0, he0, -, -⟩ := nodeOk_iff.mp hlk.1
    have he0' : occAt (s1.entries.set i (.Occupied { e with next := some h0 })) h0 =
        some e0 := by
      rw [occAt_set_ne hh0ne]
      exact he0
    have hmod2 : modifyOcc (s1.entries.set i (.Occupied { e with next := some h0 })) h0
        (fun o => { o with prev := some i }) =
        some ((s1.entries.set i (.Occupied { e with next := some h0 })).set h0
          (.Occupied { e0 with prev := some i })) := by
      unfold modifyOcc
      rw [he0']
    have hmmr : make_most_recent s i = some { s1 with
        entries := (s1.entries.set i (.Occupied { e with next := some h0 })).set h0
          (.Occupied { e0 with prev := some i }),
        entries_head := some i } := by
      unfold make_most_recent
      rw [hunlink]
      dsimp only
      rw [hmod1]
      dsimp only
      rw [hh]
      dsimp only
      rw [hmod2]
      dsimp only
      rw [if_neg ht]
    have h0lt2 : h0 < (s1.entries.set i (.Occupied { e with next := some h0 })).length := by
      rw [List.length_set]
      exact h0lt
    refine ⟨e.item, { s1 with
        entries := (s1.entries.set i (.Occupied { e with next := some h0 })).set h0
          (.Occupied { e0 with prev := some i }),
        entries_head := some i }, ?_, ?_, ?_, rfl,
      { e with next := some h0 }, ?_, rfl, ?_⟩
    · unfold CostBasedLru.get
      rw [h]
      dsimp only
      rw [hmmr]
      dsimp only
      rw [occAt_set_ne (Ne.symm hh0ne), occAt_set_occ hilt]
    · simp [valueAt, h, he]
    · dsimp only
      rw [hidx1]
      exact h
    · dsimp only
      rw [occAt_set_ne (Ne.symm hh0ne), occAt_set_occ hilt]
    · intro n hn
      have hn0 : h0 = n := Option.some.inj hn
      subst hn0
      exact ⟨hh0ne, { e0 with prev := some i }, occAt_set_occ h0lt2 _⟩


/-- A `get` of the key sitting at `entries_head` always succeeds and returns
the stored item, whatever the slot's (possibly stale) `prev` field holds:
`unlink_index` takes the head branch, which never reads `prev`.  This is the
state `get` itself leaves behind, so a repeated `get` cannot panic. -/
theorem get_head_total {s : CostBasedLru K V} {k : K} {i : Nat} {e : OccEntry K V}
    (hlk : lookupA s.index k = some i)
    (hh : s.entries_head = some i)
    (he : occAt s.entries i = some e)
    (hn : ∀ n, e.next = some n → n ≠ i ∧ ∃ en, occAt s.entries n = some en) :
    ∃ s', CostBasedLru.get s k = some (some e.item, s') := by
  have hilt : i < s.entries.length := occAt_lt_length he
  cases hen : e.next with
  | none =>
    have hmod : modifyOcc s.entries i (fun o => { o with next := none }) =
        some (s.entries.set i (.Occupied { e with next := none })) := by
      unfold modifyOcc
      rw [he]
    unfold CostBasedLru.get
    rw [hlk]
    dsimp only
    unfold make_most_recent unlink_index
    dsimp only
    by_cases ht : s.entries_tail = some i
    · rw [if_pos ht, he]
      dsimp only
      rw [if_pos hh, he]
      dsimp only
      rw [hen]
      dsimp only
      rw [hmod]
      dsimp only
      by_cases hp : e.prev = none
      · rw [if_pos hp, occAt_set_occ hilt]
        exact ⟨_, rfl⟩
      · rw [if_neg hp, occAt_set_occ hilt]
        exact ⟨_, rfl⟩
    · rw [if_neg ht]
      dsimp only
      rw [if_pos hh, he]
      dsimp only
      rw [hen]
      dsimp only
      rw [hmod]
      dsimp only
      by_cases hq : s.entries_tail = none
      · rw [if_pos hq, occAt_set_occ hilt]
        exact ⟨_, rfl⟩
      · rw [if_neg hq, occAt_set_occ hilt]
        exact ⟨_, rfl⟩
  | some n =>
    obtain ⟨hni, en, hen2⟩ := hn n hen
    have hnlt : n < s.entries.length := occAt_lt_length hen2
    have hnlt2 : n < (s.entries.set n (.Occupied { en with prev := none })).length := by
      rw [List.length_set]
      exact hnlt
    have hilt2 : i < (s.entries.set n (.Occupied { en with prev := none })).length := by
      rw [List.length_set]
      exact hilt
    have hmodn : modifyOcc s.entries n (fun o => { o with prev := none }) =
        some (s.entries.set n (.Occupied { en with prev := none })) := by
      unfold modifyOcc
      rw [hen2]
    have hmod2 : modifyOcc (s.entries.set n (.Occupied { en with prev := none })) i
        (fun o => { o with next := some n }) =
        some ((s.entries.set n (.Occupied { en with prev := none })).set i
          (.Occupied { e with next := some n })) := by
      unfold modifyOcc
      rw [occAt_set_ne (Ne.symm hni), he]
    have hmod3 : modifyOcc ((s.entries.set n (.Occupied { en with prev := none })).set i
          (.Occupied { e with next := some n })) n
        (fun o => { o with prev := some i }) =
        some (((s.entries.set n (.Occupied { en with prev := none })).set i
          (.Occupied { e with next := some n })).set n
          (.Occupied { { en with prev := none } with prev := some i })) := by
      unfold modifyOcc
      rw [occAt_set_ne hni, occAt_set_occ hnlt]
    unfold CostBasedLru.get
    rw [hlk]
    dsimp only
    unfold make_most_recent unlink_index
    dsimp only
    by_cases ht : s.entries_tail = some i
    · rw [if_pos ht, he]
      dsimp only
      rw [if_pos hh, he]
      dsimp only
      rw [hen]
      dsimp only
      rw [hmodn]
      dsimp only
      rw [hmod2]
      dsimp only
      rw [hmod3]
      dsimp only
      by_cases hp : e.prev = none
      · rw [if_pos hp, occAt_set_ne (Ne.symm hni), occAt_set_occ hilt2]
        exact ⟨_, rfl⟩
      · rw [if_neg hp, occAt_set_ne (Ne.symm hni), occAt_set_occ hilt2]
        exact ⟨_, rfl⟩
    · rw [if_neg ht]
      dsimp only
      rw [if_pos hh, he]
      dsimp only
      rw [hen]
      dsimp only
      rw [hmodn]
      dsimp only
      rw [hmod2]
      dsimp only
      rw [hmod3]
      dsimp only
      by_cases hq : s.entries_tail = none
      · rw [if_pos hq, occAt_set_ne (Ne.symm hni), occAt_set_occ hilt2]
        exact ⟨_, rfl⟩
      · rw [if_neg hq, occAt_set_ne (Ne.symm hni), occAt_set_occ hilt2]
        exact ⟨_, rfl⟩

end GetPostOps

section AssetCacheLemmas

variable {K V : Type} [DecidableEq K]

/-- `CostBasedLru::remove` on a missing key is a no-op. -/
theorem remove_miss {s : CostBasedLru K V} {k : K}
    (h : lookupA s.index k = none) :
    CostBasedLru.remove s k = some (none, s) := by
  unfold CostBasedLru.remove
  rw [h]

/-- A search misses, untouched, when all three read tiers miss. -/
theorem search_miss (alive : K → Bool) (st : AssetCacheState K V) (key : K)
    (hpin : lookupA st.pinned_entries key = none)
    (hdec : lookupA st.decoded_cache.index key = none)
    (hweak : lookupA st.weak_refs key = none) :
    search_for_item alive st key = some (none, st) := by
  unfold search_for_item
  rw [hpin]
  dsimp only
  rw [get_miss hdec]
  dsimp only
  rw [hweak]

/-- A search also misses when the only hit is a dead weak reference. -/
theorem search_miss_dead (alive : K → Bool) (st : AssetCacheState K V) (key : K)
    {v : V} (hpin : lookupA st.pinned_entries key = none)
    (hdec : lookupA st.decoded_cache.index key = none)
    (hweak : lookupA st.weak_refs key = some v)
    (hdead : alive key = false) :
    search_for_item alive st key = some (none, st) := by
  unfold search_for_item
  rw [hpin]
  dsimp only
  rw [get_miss hdec]
  dsimp only
  rw [hweak]
  simp [hdead]

/-- A pinned key dominates `get`: the pinned value is returned and nothing
at all changes. -/
theorem get_pinned (env : AssetCacheEnv K V) (alive : K → Bool)
    (st : AssetCacheState K V) (key : K) {v : V}
    (hpin : lookupA st.pinned_entries key = some v) :
    AssetCache.get env alive st key = some (.ok v, st) := by
  unfold AssetCache.get find_or_decode search_for_item
  rw [hpin]

/-- Evaluation of `find_or_decode_postchecked` along the streaming,
too-big-to-cache path: the value is decoded once, kept out of the decoded
LRU, published as a weak reference and returned. -/
theorem postchecked_stream_nocache (env : AssetCacheEnv K V) (alive : K → Bool)
    (st : AssetCacheState K V) (key : K) (r : VfsReader) (v : V) (cost size : Nat)
    (hmiss : search_for_item alive st key = some (none, st))
    (hopen : env.vfs_open key = .ok r)
    (hsize : r.size = .ok size)
    (hbig : ¬ size ≤ env.config.max_single_object_bytes_cost)
    (hstream : env.decodeStream r = .ok v)
    (hcost : env.estimate_cost v = .ok cost)
    (htoobig : ¬ cost ≤ env.config.max_single_object_decoded_cost) :
    find_or_decode_postchecked env alive st key = some (.ok v, { st with
      weak_refs := insertA st.weak_refs key v,
      decode_count := st.decode_count + 1 }) := by
  unfold find_or_decode_postchecked
  rw [hmiss]
  dsimp only
  rw [hopen]
  dsimp only
  rw [hsize]
  dsimp only
  rw [if_neg hbig, hstream]
  dsimp only
  unfold afterDecode
  rw [hcost]
  dsimp only
  rw [if_neg htoobig]

/-- `AssetCache::remove` of an absent key changes nothing. -/
theorem remove_noop {st : AssetCacheState K V} {key : K}
    (hp : lookupA st.pinned_entries key = none)
    (hb : lookupA st.bytes_cache.index key = none)
    (hg : key ∉ st.decoding_guards)
    (hd : lookupA st.decoded_cache.index key = none)
    (hw : lookupA st.weak_refs key = none) :
    AssetCache.remove st key = some st := by
  have hfg : ∀ a ∈ st.decoding_guards, decide (a ≠ key) = true :=
    fun a ha => decide_eq_true (fun hc => hg (hc ▸ ha))
  unfold AssetCache.remove
  dsimp only
  rw [removeA_of_lookupA_none hp]
  rw [remove_miss hb]
  dsimp only
  rw [List.filter_eq_self.mpr hfg]
  rw [remove_miss hd]
  dsimp only
  rw [removeA_of_lookupA_none hw]

/-- Any search either returns a value, or misses leaving the state
untouched (needs the decoded LRU well-formed so its `get` cannot panic). -/
theorem search_total (alive : K → Bool) (st : AssetCacheState K V) (key : K)
    (hWd : Wf st.decoded_cache) :
    (∃ v st', search_for_item alive st key = some (some v, st')) ∨
      search_for_item alive st key = some (none, st) := by
  cases hp : lookupA st.pinned_entries key with
  | some x =>
    left
    refine ⟨x, st, ?_⟩
    unfold search_for_item
    rw [hp]
  | none =>
    cases hd : lookupA st.decoded_cache.index key with
    | some i =>
      obtain ⟨l, f, hC⟩ := hWd
      obtain ⟨v, dc, hget⟩ := get_hit hC hd
      left
      refine ⟨v, { st with decoded_cache := dc }, ?_⟩
      unfold search_for_item
      rw [hp]
      dsimp only
      rw [hget]
    | none =>
      cases hw : lookupA st.weak_refs key with
      | some v =>
        cases ha : alive key with
        | true =>
          left
          refine ⟨v, st, ?_⟩
          unfold search_for_item
          rw [hp]
          dsimp only
          rw [get_miss hd]
          dsimp only
          rw [hw]
          simp [ha]
        | false =>
          right
          exact search_miss_dead alive st key hp hd hw ha
      | none =>
        right
        exact search_miss alive st key hp hd hw

/-- The tail of the decode path never panics when the decoded LRU is
well-formed and the single-object limit is within its budget. -/
theorem afterDecode_total (env : AssetCacheEnv K V) (st : AssetCacheState K V)
    (key : K) (d : V) (hWd : Wf st.decoded_cache)
    (hdl : env.config.max_single_object_decoded_cost ≤ st.decoded_cache.max_cost) :
    afterDecode env st key d ≠ none := by
  intro hcontra
  unfold afterDecode at hcontra
  cases hc : env.estimate_cost d with
  | error e =>
    rw [hc] at hcontra
    simp at hcontra
  | ok cost =>
    rw [hc] at hcontra
    dsimp only at hcontra
    by_cases hle : cost ≤ env.config.max_single_object_decoded_cost
    · rw [if_pos hle] at hcontra
      obtain ⟨s', hins, hWf2, hmax2, -, hfits, -⟩ := insert_wf hWd key d cost
      rw [hins] at hcontra
      dsimp only at hcontra
      have hv : valueAt s' key = some d := hfits (le_trans hle hdl)
      cases hlk : lookupA s'.index key with
      | none =>
        unfold valueAt at hv
        rw [hlk] at hv
        simp at hv
      | some i =>
        obtain ⟨l2, f2, hC2⟩ := hWf2
        obtain ⟨v2, s2, hget⟩ := get_hit hC2 hlk
        rw [hget] at hcontra
        simp at hcontra
    · rw [if_neg hle] at hcontra
      simp at hcontra

/-- The bytes-cache decode path never panics when both LRUs are well-formed
and the size fits the bytes budget. -/
theorem viaBytesCache_total (env : AssetCacheEnv K V) (st : AssetCacheState K V)
    (key : K) (r : VfsReader) (size : Nat)
    (hWb : Wf st.bytes_cache) (hWd : Wf st.decoded_cache)
    (hsz : size ≤ st.bytes_cache.max_cost)
    (hdl : env.config.max_single_object_decoded_cost ≤ st.decoded_cache.max_cost) :
    viaBytesCache env st key r size ≠ none := by
  intro hcontra
  unfold viaBytesCache at hcontra
  cases hlk : lookupA st.bytes_cache.index key with
  | some i =>
    obtain ⟨l, f, hCb⟩ := hWb
    obtain ⟨x, bc, hget⟩ := get_hit hCb hlk
    rw [hget] at hcontra
    dsimp only at hcontra
    cases hdx : env.decode x with
    | error e =>
      rw [hdx] at hcontra
      simp at hcontra
    | ok d =>
      rw [hdx] at hcontra
      dsimp only at hcontra
      exact afterDecode_total env
        { st with bytes_cache := bc, decode_count := st.decode_count + 1 }
        key d hWd hdl hcontra
  | none =>
    rw [get_miss hlk] at hcontra
    dsimp only at hcontra
    cases hrb : r.bytes with
    | error e =>
      rw [hrb] at hcontra
      simp at hcontra
    | ok dest =>
      rw [hrb] at hcontra
      dsimp only at hcontra
      obtain ⟨bc2, hins, hWf2, hmax2, -, hfits, -⟩ := insert_wf hWb key dest size
      rw [hins] at hcontra
      dsimp only at hcontra
      have hv : valueAt bc2 key = some dest := hfits hsz
      cases hlk2 : lookupA bc2.index key with
      | none =>
        unfold valueAt at hv
        rw [hlk2] at hv
        simp at hv
      | some i2 =>
        obtain ⟨l2, f2, hC2⟩ := hWf2
        obtain ⟨x2, bc3, hget2⟩ := get_hit hC2 hlk2
        rw [hget2] at hcontra
        dsimp only at hcontra
        cases hdx : env.decode x2 with
        | error e =>
          rw [hdx] at hcontra
          simp at hcontra
        | ok d =>
          rw [hdx] at hcontra
          dsimp only at hcontra
          exact afterDecode_total env
            { st with bytes_cache := bc3, decode_count := st.decode_count + 1 }
            key d hWd hdl hcontra

/-- `find_or_decode_postchecked` never panics when both LRUs are
well-formed and the single-object limits are within the budgets. -/
theorem postchecked_total (env : AssetCacheEnv K V) (alive : K → Bool)
    (st : AssetCacheState K V) (key : K)
    (hWb : Wf st.bytes_cache) (hWd : Wf st.decoded_cache)
    (hbl : env.config.max_single_object_bytes_cost ≤ st.bytes_cache.max_cost)
    (hdl : env.config.max_single_object_decoded_cost ≤ st.decoded_cache.max_cost) :
    find_or_decode_postchecked env alive st key ≠ none := by
  intro hcontra
  unfold find_or_decode_postchecked at hcontra
  rcases search_total alive st key hWd with ⟨v, st1, hs⟩ | hs
  · rw [hs] at hcontra
    simp at hcontra
  · rw [hs] at hcontra
    dsimp only at hcontra
    cases ho : env.vfs_open key with
    | error e =>
      rw [ho] at hcontra
      simp at hcontra
    | ok r =>
      rw [ho] at hcontra
      dsimp only at hcontra
      cases hsz : r.size with
      | error e =>
        rw [hsz] at hcontra
        simp at hcontra
      | ok size =>
        rw [hsz] at hcontra
        dsimp only at hcontra
        by_cases hle : size ≤ env.config.max_single_object_bytes_cost
        · rw [if_pos hle] at hcontra
          exact viaBytesCache_total env st key r size hWb hWd (le_trans hle hbl) hdl hcontra
        · rw [if_neg hle] at hcontra
          cases hds : env.decodeStream r with
          | error e =>
            rw [hds] at hcontra
            simp at hcontra
          | ok d =>
            rw [hds] at hcontra
            dsimp only at hcontra
            exact afterDecode_total env
              { st with decode_count := st.decode_count + 1 }
              key d hWd hdl hcontra


/-- Evaluation of `find_or_decode_postchecked` along the bytes-cache-hit
path: the cached bytes are decoded once and the result handled by
`afterDecode`; with an oversize estimated cost the value is kept out of the
decoded LRU, published as a weak reference and returned. -/
theorem postchecked_bytes_hit (env : AssetCacheEnv K V) (alive : K → Bool)
    (st : AssetCacheState K V) (key : K) (r : VfsReader) (x : List Nat) (v : V)
    (cost size : Nat) {bc2 : CostBasedLru K (List Nat)}
    (hmiss : search_for_item alive st key = some (none, st))
    (hopen : env.vfs_open key = .ok r)
    (hsize : r.size = .ok size)
    (hsmall : size ≤ env.config.max_single_object_bytes_cost)
    (hbget : CostBasedLru.get st.bytes_cache key = some (some x, bc2))
    (hdx : env.decode x = .ok v)
    (hcost : env.estimate_cost v = .ok cost)
    (htoobig : ¬ cost ≤ env.config.max_single_object_decoded_cost) :
    find_or_decode_postchecked env alive st key = some (.ok v, { st with
      bytes_cache := bc2,
      weak_refs := insertA st.weak_refs key v,
      decode_count := st.decode_count + 1 }) := by
  unfold find_or_decode_postchecked
  rw [hmiss]
  dsimp only
  rw [hopen]
  dsimp only
  rw [hsize]
  dsimp only
  rw [if_pos hsmall]
  unfold viaBytesCache
  rw [hbget]
  dsimp only
  rw [hdx]
  dsimp only
  unfold afterDecode
  rw [hcost]
  dsimp only
  rw [if_neg htoobig]

/-- Evaluation of `find_or_decode_postchecked` along the bytes-cache-miss
path: the stream is read, the bytes inserted and fetched back (the
`expect("We just inserted this")` succeeding as hypothesised), decoded once,
and the oversize result kept out of the decoded LRU but published as a weak
reference and returned. -/
theorem postchecked_bytes_miss (env : AssetCacheEnv K V) (alive : K → Bool)
    (st : AssetCacheState K V) (key : K) (r : VfsReader) (dest : List Nat) (v : V)
    (cost size : Nat) {ret : Option (List Nat)} {bc2 bc3 : CostBasedLru K (List Nat)}
    (hmiss : search_for_item alive st key = some (none, st))
    (hopen : env.vfs_open key = .ok r)
    (hsize : r.size = .ok size)
    (hsmall : size ≤ env.config.max_single_object_bytes_cost)
    (hbmiss : lookupA st.bytes_cache.index key = none)
    (hdest : r.bytes = .ok dest)
    (hins : CostBasedLru.insert st.bytes_cache key dest size = some (ret, bc2))
    (hbget : CostBasedLru.get bc2 key = some (some dest, bc3))
    (hdd : env.decode dest = .ok v)
    (hcost : env.estimate_cost v = .ok cost)
    (htoobig : ¬ cost ≤ env.config.max_single_object_decoded_cost) :
    find_or_decode_postchecked env alive st key = some (.ok v, { st with
      bytes_cache := bc3,
      weak_refs := insertA st.weak_refs key v,
      decode_count := st.decode_count + 1 }) := by
  unfold find_or_decode_postchecked
  rw [hmiss]
  dsimp only
  rw [hopen]
  dsimp only
  rw [hsize]
  dsimp only
  rw [if_pos hsmall]
  unfold viaBytesCache
  rw [get_miss hbmiss]
  dsimp only
  rw [hdest]
  dsimp only
  rw [hins]
  dsimp only
  rw [hbget]
  dsimp only
  rw [hdd]
  dsimp only
  unfold afterDecode
  rw [hcost]
  dsimp only
  rw [if_neg htoobig]


/-- A `get` that finds the key through a live weak reference (pinned and
decoded LRU missing) returns that value and changes nothing. -/
theorem get_weak_alive (env : AssetCacheEnv K V) (aliveT : K → Bool)
    (st' : AssetCacheState K V) (key : K) {v : V}
    (hpin : lookupA st'.pinned_entries key = none)
    (hdec : lookupA st'.decoded_cache.index key = none)
    (hweak : lookupA st'.weak_refs key = some v)
    (halive : aliveT key = true) :
    AssetCache.get env aliveT st' key = some (.ok v, st') := by
  have hs : search_for_item aliveT st' key = some (some v, st') := by
    unfold search_for_item
    rw [hpin]
    dsimp only
    rw [get_miss hdec]
    dsimp only
    rw [hweak]
    simp [halive]
  unfold AssetCache.get find_or_decode
  rw [hs]

/-- A `get` over a dead weak reference, with the decoding guard already
present, reduces to `find_or_decode_postchecked`. -/
theorem get_guarded_postchecked (env : AssetCacheEnv K V) (aliveF : K → Bool)
    (st' : AssetCacheState K V) (key : K) {v : V}
    (hpin : lookupA st'.pinned_entries key = none)
    (hdec : lookupA st'.decoded_cache.index key = none)
    (hweak : lookupA st'.weak_refs key = some v)
    (hdead : aliveF key = false)
    (hgm : key ∈ st'.decoding_guards) :
    AssetCache.get env aliveF st' key = find_or_decode_postchecked env aliveF st' key := by
  have hs : search_for_item aliveF st' key = some (none, st') :=
    search_miss_dead aliveF st' key hpin hdec hweak hdead
  unfold AssetCache.get find_or_decode
  rw [hs]
  dsimp only
  rw [if_pos hgm]

end AssetCacheLemmas

section ClaimC8

variable {K V : Type} [DecidableEq K]

/-- C8: pin dominance.  If `key` is pinned with value `v`, `AssetCache::get`
returns exactly `v` and leaves the entire state untouched — for every
VFS/decoder environment and every weak-reference aliveness, so the LRUs,
the weak table, the VFS and the decoder are not consulted (in particular the
decoder invocation count is unchanged).  `cache_always key v` establishes
the pin, so afterwards every `get key` returns `v` until the pin is
removed. -/
theorem c8_pin_dominance (env env2 : AssetCacheEnv K V) (alive alive2 : K → Bool)
    (st : AssetCacheState K V) (key : K) (v : V)
    (hpin : lookupA st.pinned_entries key = some v) :
    AssetCache.get env alive st key = some (.ok v, st) ∧
    lookupA (cache_always st key v).pinned_entries key = some v ∧
    AssetCache.get env2 alive2 (cache_always st key v) key =
      some (.ok v, cache_always st key v) :=
  ⟨get_pinned env alive st key hpin,
   lookupA_insertA_self _ _ _,
   get_pinned env2 alive2 (cache_always st key v) key (lookupA_insertA_self _ _ _)⟩

/-- C8 witness: a pinned key on a concrete cache. -/
theorem c8_pin_dominance_witness :
    AssetCache.get envStream (fun _ => false) stPinned 3 = some (.ok 99, stPinned) ∧
    lookupA (cache_always stPinned 3 99).pinned_entries 3 = some 99 ∧
    AssetCache.get envStream (fun _ => true) (cache_always stPinned 3 99) 3 =
      some (.ok 99, cache_always stPinned 3 99) :=
  c8_pin_dominance envStream envStream (fun _ => false) (fun _ => true) stPinned 3 99 rfl

end ClaimC8

section ClaimC4

variable {K V : Type} [DecidableEq K]

/-- C4 (refuted): when the reader's `get_size` fails, `AssetCache::get` does
not treat the object as too big and stream it into the decoder as the spec
prescribes — line 110 of asset_cache.rs propagates the failure with `?`.
From a complete cache miss with an openable reader whose `get_size` errors,
`get` returns `Err(Vfs)` and the decoder is never invoked (the invocation
count is unchanged), even though streaming would have decoded a value
(`decodeStream r = ok v`). -/
theorem c4_get_size_error_fails_lookup (env : AssetCacheEnv K V)
    (alive : K → Bool) (st : AssetCacheState K V) (key : K) {r : VfsReader} {v : V}
    (hpin : lookupA st.pinned_entries key = none)
    (hdec : lookupA st.decoded_cache.index key = none)
    (hweak : lookupA st.weak_refs key = none)
    (hopen : env.vfs_open key = .ok r)
    (hsize : r.size = .error ())
    (hstream : env.decodeStream r = .ok v) :
    ∃ st', AssetCache.get env alive st key = some (.error .vfs, st') ∧
      st'.decode_count = st.decode_count := by
  have h1 := search_miss alive st key hpin hdec hweak
  by_cases hg : key ∈ st.decoding_guards
  · refine ⟨st, ?_, rfl⟩
    unfold AssetCache.get find_or_decode
    rw [h1]
    dsimp only
    rw [if_pos hg]
    unfold find_or_decode_postchecked
    rw [h1]
    dsimp only
    rw [hopen]
    dsimp only
    rw [hsize]
  · refine ⟨{ st with decoding_guards := key :: st.decoding_guards }, ?_, rfl⟩
    unfold AssetCache.get find_or_decode
    rw [h1]
    dsimp only
    rw [if_neg hg]
    unfold find_or_decode_postchecked
    rw [search_miss alive { st with decoding_guards := key :: st.decoding_guards } key
      hpin hdec hweak]
    dsimp only
    rw [hopen]
    dsimp only
    rw [hsize]

/-- C4 witness: a fresh cache over a reader with no reported size. -/
theorem c4_get_size_error_fails_lookup_witness :
    ∃ st', AssetCache.get envNoSize (fun _ => false)
        (AssetCacheState.new envNoSize.config : AssetCacheState Nat Nat) 0 =
        some (.error .vfs, st') ∧
      st'.decode_count =
        (AssetCacheState.new envNoSize.config : AssetCacheState Nat Nat).decode_count :=
  c4_get_size_error_fails_lookup envNoSize (fun _ => false) _ 0 rfl rfl rfl rfl rfl rfl

end ClaimC4

section ClaimC9

variable {K V : Type} [DecidableEq K]

/-- Core of C9, assuming the per-key decoding guard is already present: a
`get` whose decoded value has oversize estimated cost — along any of the
three decode routes (streaming, bytes-cache hit, bytes-cache miss) — keeps
the value out of the decoded LRU, publishes it as a weak reference and
returns it; a live-handle `get` then returns it unchanged, and a
dead-handle `get` decodes again. -/
theorem c9_oversize_core (env : AssetCacheEnv K V) (alive aliveT aliveF : K → Bool)
    (st : AssetCacheState K V) (key : K) (r : VfsReader) (v : V) (cost size : Nat)
    (hpin : lookupA st.pinned_entries key = none)
    (hdec : lookupA st.decoded_cache.index key = none)
    (hweak : lookupA st.weak_refs key = none ∨ alive key = false)
    (hgmem : key ∈ st.decoding_guards)
    (hopen : env.vfs_open key = .ok r)
    (hsize : r.size = .ok size)
    (hpath : (¬ size ≤ env.config.max_single_object_bytes_cost ∧
        env.decodeStream r = .ok v) ∨
      (size ≤ env.config.max_single_object_bytes_cost ∧ Wf st.bytes_cache ∧
        ((∃ x, valueAt st.bytes_cache key = some x ∧ env.decode x = .ok v) ∨
         (lookupA st.bytes_cache.index key = none ∧ size ≤ st.bytes_cache.max_cost ∧
           ∃ dest, r.bytes = .ok dest ∧ env.decode dest = .ok v))))
    (hcost : env.estimate_cost v = .ok cost)
    (htoobig : ¬ cost ≤ env.config.max_single_object_decoded_cost)
    (haliveT : aliveT key = true) (haliveF : aliveF key = false) :
    ∃ st', find_or_decode_postchecked env alive st key = some (.ok v, st') ∧
      st'.decoded_cache = st.decoded_cache ∧
      st'.pinned_entries = st.pinned_entries ∧
      lookupA st'.weak_refs key = some v ∧
      st'.decode_count = st.decode_count + 1 ∧
      AssetCache.get env aliveT st' key = some (.ok v, st') ∧
      ∃ st2, AssetCache.get env aliveF st' key = some (.ok v, st2) ∧
        st2.decode_count = st'.decode_count + 1 := by
  have hmiss : search_for_item alive st key = some (none, st) := by
    rcases hweak with hw | hdead
    · exact search_miss alive st key hpin hdec hw
    · cases hw2 : lookupA st.weak_refs key with
      | none => exact search_miss alive st key hpin hdec hw2
      | some w => exact search_miss_dead alive st key hpin hdec hw2 hdead
  rcases hpath with ⟨hbig, hstream⟩ | ⟨hsmall, hWb, hbpath⟩
  · refine ⟨{ st with
        weak_refs := insertA st.weak_refs key v,
        decode_count := st.decode_count + 1 },
      postchecked_stream_nocache env alive st key r v cost size hmiss hopen hsize hbig
        hstream hcost htoobig, rfl, rfl, lookupA_insertA_self _ _ _, rfl, ?_, ?_⟩
    · exact get_weak_alive env aliveT { st with
          weak_refs := insertA st.weak_refs key v,
          decode_count := st.decode_count + 1 } key hpin hdec
        (lookupA_insertA_self _ _ _) haliveT
    · have hw' : lookupA (insertA st.weak_refs key v) key = some v :=
        lookupA_insertA_self _ _ _
      refine ⟨{ st with
          weak_refs := insertA (insertA st.weak_refs key v) key v,
          decode_count := st.decode_count + 1 + 1 }, ?_, rfl⟩
      rw [get_guarded_postchecked env aliveF { st with
          weak_refs := insertA st.weak_refs key v,
          decode_count := st.decode_count + 1 } key hpin hdec hw' haliveF hgmem]
      exact postchecked_stream_nocache env aliveF { st with
          weak_refs := insertA st.weak_refs key v,
          decode_count := st.decode_count + 1 } key r v cost size
        (search_miss_dead aliveF { st with
            weak_refs := insertA st.weak_refs key v,
            decode_count := st.decode_count + 1 } key hpin hdec hw' haliveF)
        hopen hsize hbig hstream hcost htoobig
  · rcases hbpath with ⟨x, hx, hdx⟩ | ⟨hbmiss, hszb, dest, hdest, hdd⟩
    · obtain ⟨l, f, hCb⟩ := hWb
      have hlkb : ∃ i, lookupA st.bytes_cache.index key = some i := by
        cases hq : lookupA st.bytes_cache.index key with
        | none =>
          unfold valueAt at hx
          rw [hq] at hx
          simp at hx
        | some i => exact ⟨i, rfl⟩
      obtain ⟨i, hlkb⟩ := hlkb
      obtain ⟨x', bc', hbget1, hxval, hlk', hhead', e', he', hei, hnext'⟩ :=
        get_hit_post hCb hlkb
      have hxx : x' = x := Option.some.inj (hxval.symm.trans hx)
      rw [hxx] at hbget1 hei
      have hbget3 : ∃ bc'', CostBasedLru.get bc' key = some (some x, bc'') := by
        obtain ⟨s'', hg⟩ := get_head_total hlk' hhead' he' hnext'
        rw [hei] at hg
        exact ⟨s'', hg⟩
      obtain ⟨bc'', hbget3⟩ := hbget3
      refine ⟨{ st with
          bytes_cache := bc',
          weak_refs := insertA st.weak_refs key v,
          decode_count := st.decode_count + 1 },
        postchecked_bytes_hit env alive st key r x v cost size hmiss hopen hsize hsmall
          hbget1 hdx hcost htoobig, rfl, rfl, lookupA_insertA_self _ _ _, rfl, ?_, ?_⟩
      · exact get_weak_alive env aliveT { st with
            bytes_cache := bc',
            weak_refs := insertA st.weak_refs key v,
            decode_count := st.decode_count + 1 } key hpin hdec
          (lookupA_insertA_self _ _ _) haliveT
      · have hw' : lookupA (insertA st.weak_refs key v) key = some v :=
          lookupA_insertA_self _ _ _
        refine ⟨{ st with
            bytes_cache := bc'',
            weak_refs := insertA (insertA st.weak_refs key v) key v,
            decode_count := st.decode_count + 1 + 1 }, ?_, rfl⟩
        rw [get_guarded_postchecked env aliveF { st with
            bytes_cache := bc',
            weak_refs := insertA st.weak_refs key v,
            decode_count := st.decode_count + 1 } key hpin hdec hw' haliveF hgmem]
        exact postchecked_bytes_hit env aliveF { st with
            bytes_cache := bc',
            weak_refs := insertA st.weak_refs key v,
            decode_count := st.decode_count + 1 } key r x v cost size
          (search_miss_dead aliveF { st with
              bytes_cache := bc',
              weak_refs := insertA st.weak_refs key v,
              decode_count := st.decode_count + 1 } key hpin hdec hw' haliveF)
          hopen hsize hsmall hbget3 hdx hcost htoobig
    · obtain ⟨bc2, hins, hWb2, hmax2, -, hfits, -⟩ := insert_wf hWb key dest size
      have hval2 : valueAt bc2 key = some dest := hfits hszb
      have hlk2 : ∃ i, lookupA bc2.index key = some i := by
        cases hq : lookupA bc2.index key with
        | none =>
          unfold valueAt at hval2
          rw [hq] at hval2
          simp at hval2
        | some i => exact ⟨i, rfl⟩
      obtain ⟨i2, hlk2⟩ := hlk2
      obtain ⟨l2, f2, hC2⟩ := hWb2
      obtain ⟨d', bc3, hbget2, hdval, hlk3, hhead3, e3, he3, he3i, hnext3⟩ :=
        get_hit_post hC2 hlk2
      have hdd' : d' = dest := Option.some.inj (hdval.symm.trans hval2)
      rw [hdd'] at hbget2 he3i
      have hbget4 : ∃ bc4, CostBasedLru.get bc3 key = some (some dest, bc4) := by
        obtain ⟨s'', hg⟩ := get_head_total hlk3 hhead3 he3 hnext3
        rw [he3i] at hg
        exact ⟨s'', hg⟩
      obtain ⟨bc4, hbget4⟩ := hbget4
      refine ⟨{ st with
          bytes_cache := bc3,
          weak_refs := insertA st.weak_refs key v,
          decode_count := st.decode_count + 1 },
        postchecked_bytes_miss env alive st key r dest v cost size hmiss hopen hsize
          hsmall hbmiss hdest hins hbget2 hdd hcost htoobig, rfl, rfl,
        lookupA_insertA_self _ _ _, rfl, ?_, ?_⟩
      · exact get_weak_alive env aliveT { st with
            bytes_cache := bc3,
            weak_refs := insertA st.weak_refs key v,
            decode_count := st.decode_count + 1 } key hpin hdec
          (lookupA_insertA_self _ _ _) haliveT
      · have hw' : lookupA (insertA st.weak_refs key v) key = some v :=
          lookupA_insertA_self _ _ _
        refine ⟨{ st with
            bytes_cache := bc4,
            weak_refs := insertA (insertA st.weak_refs key v) key v,
            decode_count := st.decode_count + 1 + 1 }, ?_, rfl⟩
        rw [get_guarded_postchecked env aliveF { st with
            bytes_cache := bc3,
            weak_refs := insertA st.weak_refs key v,
            decode_count := st.decode_count + 1 } key hpin hdec hw' haliveF hgmem]
        exact postchecked_bytes_hit env aliveF { st with
            bytes_cache := bc3,
            weak_refs := insertA st.weak_refs key v,
            decode_count := st.decode_count + 1 } key r dest v cost size
          (search_miss_dead aliveF { st with
              bytes_cache := bc3,
              weak_refs := insertA st.weak_refs key v,
              decode_count := st.decode_count + 1 } key hpin hdec hw' haliveF)
          hopen hsize hsmall hbget4 hdd hcost htoobig

/-- C9: every `get` whose decoded value has estimated cost exceeding
`max_single_object_decoded_cost` — whether the asset streams past the bytes
cache, decodes from already-cached bytes, or reads and caches its bytes
first — keeps the value out of the decoded LRU (which is left untouched,
as is the pinned table) but publishes it in `weak_refs` and returns it; a
subsequent `get` while the handle is alive returns the same value through
the weak table with the state unchanged (so the decoder is not invoked
again); once the handle is dead, a further `get` decodes again (the
invocation count increases).  The initial lookup may equally start from a
dead weak entry. -/
theorem c9_weak_recovery (env : AssetCacheEnv K V) (alive aliveT aliveF : K → Bool)
    (st : AssetCacheState K V) (key : K) (r : VfsReader) (v : V) (cost size : Nat)
    (hpin : lookupA st.pinned_entries key = none)
    (hdec : lookupA st.decoded_cache.index key = none)
    (hweak : lookupA st.weak_refs key = none ∨ alive key = false)
    (hopen : env.vfs_open key = .ok r)
    (hsize : r.size = .ok size)
    (hpath : (¬ size ≤ env.config.max_single_object_bytes_cost ∧
        env.decodeStream r = .ok v) ∨
      (size ≤ env.config.max_single_object_bytes_cost ∧ Wf st.bytes_cache ∧
        ((∃ x, valueAt st.bytes_cache key = some x ∧ env.decode x = .ok v) ∨
         (lookupA st.bytes_cache.index key = none ∧ size ≤ st.bytes_cache.max_cost ∧
           ∃ dest, r.bytes = .ok dest ∧ env.decode dest = .ok v))))
    (hcost : env.estimate_cost v = .ok cost)
    (htoobig : ¬ cost ≤ env.config.max_single_object_decoded_cost)
    (haliveT : aliveT key = true) (haliveF : aliveF key = false) :
    ∃ st', AssetCache.get env alive st key = some (.ok v, st') ∧
      st'.decoded_cache = st.decoded_cache ∧
      st'.pinned_entries = st.pinned_entries ∧
      lookupA st'.weak_refs key = some v ∧
      st'.decode_count = st.decode_count + 1 ∧
      AssetCache.get env aliveT st' key = some (.ok v, st') ∧
      ∃ st2, AssetCache.get env aliveF st' key = some (.ok v, st2) ∧
        st2.decode_count = st'.decode_count + 1 := by
  have hmiss : search_for_item alive st key = some (none, st) := by
    rcases hweak with hw | hdead
    · exact search_miss alive st key hpin hdec hw
    · cases hw2 : lookupA st.weak_refs key with
      | none => exact search_miss alive st key hpin hdec hw2
      | some w => exact search_miss_dead alive st key hpin hdec hw2 hdead
  by_cases hg : key ∈ st.decoding_guards
  · obtain ⟨st', h1, h2, h3, h4, h5, h6, h7⟩ := c9_oversize_core env alive aliveT aliveF
      st key r v cost size hpin hdec hweak hg hopen hsize hpath hcost htoobig
      haliveT haliveF
    refine ⟨st', ?_, h2, h3, h4, h5, h6, h7⟩
    unfold AssetCache.get find_or_decode
    rw [hmiss]
    dsimp only
    rw [if_pos hg]
    exact h1
  · obtain ⟨st', h1, h2, h3, h4, h5, h6, h7⟩ := c9_oversize_core env alive aliveT aliveF
      { st with decoding_guards := key :: st.decoding_guards } key r v cost size
      hpin hdec hweak (List.mem_cons_self key st.decoding_guards) hopen hsize hpath
      hcost htoobig haliveT haliveF
    refine ⟨st', ?_, h2, h3, h4, h5, h6, h7⟩
    unfold AssetCache.get find_or_decode
    rw [hmiss]
    dsimp only
    rw [if_neg hg]
    exact h1

/-- C9 witness: a fresh cache over a small asset (cached in the bytes LRU)
whose decoded cost 9 exceeds the decoded single-object limit 5. -/
theorem c9_weak_recovery_witness :
    ∃ st', AssetCache.get envBytesSmall (fun _ => false)
        (AssetCacheState.new envBytesSmall.config : AssetCacheState Nat Nat) 0 =
        some (.ok 77, st') ∧
      st'.decoded_cache =
        (AssetCacheState.new envBytesSmall.config : AssetCacheState Nat Nat).decoded_cache ∧
      st'.pinned_entries =
        (AssetCacheState.new envBytesSmall.config : AssetCacheState Nat Nat).pinned_entries ∧
      lookupA st'.weak_refs 0 = some 77 ∧
      st'.decode_count =
        (AssetCacheState.new envBytesSmall.config : AssetCacheState Nat Nat).decode_count + 1 ∧
      AssetCache.get envBytesSmall (fun _ => true) st' 0 = some (.ok 77, st') ∧
      ∃ st2, AssetCache.get envBytesSmall (fun _ => false) st' 0 = some (.ok 77, st2) ∧
        st2.decode_count = st'.decode_count + 1 :=
  c9_weak_recovery envBytesSmall (fun _ => false) (fun _ => true) (fun _ => false) _ 0
    { size := .ok 2, bytes := .ok [1, 2] } 77 9 2
    rfl rfl (Or.inl rfl) rfl rfl
    (Or.inr ⟨by decide, wf_new _, Or.inr ⟨rfl, by decide, [1, 2], rfl, rfl⟩⟩)
    rfl (by decide) rfl rfl

end ClaimC9

section ClaimC5

variable {K V : Type} [DecidableEq K]

/-- C5: `AssetCache::remove(key)` (given well-formed LRUs, so their `remove`
cannot panic) succeeds and deletes the key from all five tiers — pinned,
bytes LRU, decoding guards, decoded LRU and `weak_refs` — after which a
search (for any aliveness, so even while old handles are still alive) finds
nothing: the prior value cannot be revived through the weak table.  A second
`remove` is an exact no-op. -/
theorem c5_remove_hard_reset (alive : K → Bool) (st : AssetCacheState K V) (key : K)
    (hWb : Wf st.bytes_cache) (hWd : Wf st.decoded_cache) :
    ∃ st', AssetCache.remove st key = some st' ∧
      lookupA st'.pinned_entries key = none ∧
      lookupA st'.bytes_cache.index key = none ∧
      key ∉ st'.decoding_guards ∧
      lookupA st'.decoded_cache.index key = none ∧
      lookupA st'.weak_refs key = none ∧
      search_for_item alive st' key = some (none, st') ∧
      AssetCache.remove st' key = some st' := by
  obtain ⟨r1, bc, hb, hWb2, hbk, -⟩ := remove_wf hWb key
  obtain ⟨r2, dc, hd, hWd2, hdk, -⟩ := remove_wf hWd key
  have hgf : key ∉ st.decoding_guards.filter (fun g => decide (g ≠ key)) := by
    simp [List.mem_filter]
  refine ⟨{ st with
      pinned_entries := removeA st.pinned_entries key,
      bytes_cache := bc,
      decoding_guards := st.decoding_guards.filter (fun g => decide (g ≠ key)),
      decoded_cache := dc,
      weak_refs := removeA st.weak_refs key }, ?_,
    lookupA_removeA_self _ _, hbk, hgf, hdk, lookupA_removeA_self _ _, ?_, ?_⟩
  · unfold AssetCache.remove
    dsimp only
    rw [hb]
    dsimp only
    rw [hd]
  · exact search_miss alive _ key (lookupA_removeA_self _ _) hdk
      (lookupA_removeA_self _ _)
  · exact remove_noop (lookupA_removeA_self _ _) hbk hgf hdk
      (lookupA_removeA_self _ _)

/-- C5 witness: removing from a concrete cache with a pinned entry. -/
theorem c5_remove_hard_reset_witness :
    ∃ st', AssetCache.remove stPinned 3 = some st' ∧
      lookupA st'.pinned_entries 3 = none ∧
      lookupA st'.bytes_cache.index 3 = none ∧
      3 ∉ st'.decoding_guards ∧
      lookupA st'.decoded_cache.index 3 = none ∧
      lookupA st'.weak_refs 3 = none ∧
      search_for_item (fun _ => true) st' 3 = some (none, st') ∧
      AssetCache.remove st' 3 = some st' :=
  c5_remove_hard_reset (fun _ => true) stPinned 3 (wf_new _) (wf_new _)

end ClaimC5

section ClaimC3

variable {K V : Type} [DecidableEq K]

/-- C3 counterexample: with `max_single_object_bytes_cost` (10) above
`max_bytes_cost` (5) — a configuration the claim explicitly admits — a
7-byte asset passes the single-object check, is inserted into the bytes LRU,
which immediately self-evicts it (7 > 5), and the following
`get(key).expect("We just inserted this")` panics: the whole `get` is `none`. -/
theorem c3_expect_panics_counterexample :
    AssetCache.get envSelfEvict (fun _ => false)
      (AssetCacheState.new envSelfEvict.config : AssetCacheState Nat Nat) 0 = none := by
  rfl

/-- C3 (amended): under the coordinator's intended configuration constraint
— each single-object limit within the corresponding LRU budget — and from
well-formed LRUs, `AssetCache::get` never panics: in particular the
`expect("Just inserted")` / `expect("We just inserted this")` branches after
the LRU insertions are unreachable, because an entry whose cost is within
the budget survives its own insertion.  Without that constraint the claim
fails (see the counterexample). -/
theorem c3_no_panic_amended (env : AssetCacheEnv K V) (alive : K → Bool)
    (st : AssetCacheState K V) (key : K)
    (hWb : Wf st.bytes_cache) (hWd : Wf st.decoded_cache)
    (hbl : env.config.max_single_object_bytes_cost ≤ st.bytes_cache.max_cost)
    (hdl : env.config.max_single_object_decoded_cost ≤ st.decoded_cache.max_cost) :
    AssetCache.get env alive st key ≠ none := by
  intro hcontra
  unfold AssetCache.get find_or_decode at hcontra
  rcases search_total alive st key hWd with ⟨v, st1, hs⟩ | hs
  · rw [hs] at hcontra
    simp at hcontra
  · rw [hs] at hcontra
    dsimp only at hcontra
    by_cases hg : key ∈ st.decoding_guards
    · rw [if_pos hg] at hcontra
      exact postchecked_total env alive st key hWb hWd hbl hdl hcontra
    · rw [if_neg hg] at hcontra
      exact postchecked_total env alive
        { st with decoding_guards := key :: st.decoding_guards } key hWb hWd hbl hdl
        hcontra

/-- C3 witness: the same 7-byte asset under the consistent configuration
(bytes budget 20) decodes without reaching any panic branch. -/
theorem c3_no_panic_amended_witness :
    AssetCache.get envConsistent (fun _ => false)
      (AssetCacheState.new envConsistent.config : AssetCacheState Nat Nat) 0 ≠ none :=
  c3_no_panic_amended envConsistent (fun _ => false) _ 0 (wf_new _) (wf_new _)
    (by decide) (by decide)

end ClaimC3
